import Mathlib

/-
  Verification of riotprompt's execution adapters and filesystem loader.

  The definitions below are shallow embeddings of the TypeScript source:
  * src/execution/gemini.ts      (mapSchema, generationConfig shaping)
  * src/execution/anthropic.ts   (system extraction, forced tool-use)
  * src/execution/openai.ts      (message mapping, response_format passthrough)
  * src/loader.ts                (createSafeIgnorePatterns, extractFirstHeader,
                                  removeFirstHeader, load)
  JSON values are modelled by an inductive `JValue`; JavaScript objects are
  association lists with unique keys (JS object literals cannot carry
  duplicate keys), and `undefined` is a distinguished value `JValue.undef`.
-/

namespace RiotVerify

/-- JSON-like values as manipulated by the adapters.  `undef` models the
JavaScript value `undefined` (returned by `mapSchema` on falsy input). -/
inductive JValue where
  | null : JValue
  | undef : JValue
  | bool : Bool → JValue
  | num : Int → JValue
  | str : String → JValue
  | arr : List JValue → JValue
  | obj : List (String × JValue) → JValue
deriving Repr

mutual

/-- Structural size measure used for termination of the schema transforms.
Strings and atoms count 1 so that character-indexed spreads of strings do
not grow the measure. -/
def jsize : JValue → Nat
  | .obj l => 1 + jsizeF l
  | .arr xs => 1 + jsizeA xs
  | _ => 1

/-- Size of an association list of fields. -/
def jsizeF : List (String × JValue) → Nat
  | [] => 0
  | (_, v) :: rest => 1 + jsize v + jsizeF rest

/-- Size of a list of values. -/
def jsizeA : List JValue → Nat
  | [] => 0
  | v :: rest => 1 + jsize v + jsizeA rest

end

/-- JavaScript truthiness on our value model: `undefined`, `null`, `false`,
`0` and the empty string are falsy; objects and arrays are always truthy. -/
def truthy : JValue → Bool
  | .null => false
  | .undef => false
  | .bool b => b
  | .num n => n != 0
  | .str t => t != ""
  | .arr _ => true
  | .obj _ => true

/-- Property read `o[k]` on a JS object represented as an association list
(first occurrence wins; JS objects have unique keys). -/
def jlook (l : List (String × JValue)) (k : String) : Option JValue :=
  match l.find? (fun p => p.1 == k) with
  | some p => some p.2
  | none => none

/-- Property write `o[k] = v`: replaces the value in place if the key is
present (JS assignment keeps the key's position), appends otherwise. -/
def setKey (l : List (String × JValue)) (k : String) (v : JValue) :
    List (String × JValue) :=
  match l with
  | [] => [(k, v)]
  | (k', v') :: rest => if k' == k then (k, v) :: rest else (k', v') :: setKey rest k v

/-- Property delete `delete o[k]`: removes the entry carrying key `k`
(JS objects hold a key at most once). -/
def delKey : List (String × JValue) → String → List (String × JValue)
  | [], _ => []
  | (a, b) :: rest, k => if a == k then delKey rest k else (a, b) :: delKey rest k

/-- Enumeration of a list as index-keyed entries, as produced by spreading a
JS array or string into an object (`\x7b...s\x7d` gives numeric string keys). -/
def enumFrom (i : Nat) : List JValue → List (String × JValue)
  | [] => []
  | v :: rest => (toString i, v) :: enumFrom (i + 1) rest

/-- The entries of `\x7b...s\x7d` (also `Object.entries(s)`): an object's own
fields; index-keyed elements for an array; index-keyed one-character strings
for a string; nothing for other primitives. -/
def toSpread : JValue → List (String × JValue)
  | .obj l => l
  | .arr xs => enumFrom 0 xs
  | .str t => enumFrom 0 (t.data.map (fun c => JValue.str (String.singleton c)))
  | _ => []

/-- Model of JavaScript `String.prototype.toUpperCase` as a character-wise
map (exact for the ASCII schema type names the adapters handle). -/
def jsUpper (s : String) : String := String.mk (s.data.map Char.toUpper)

/-- Model of JavaScript `String.prototype.toLowerCase` (exact on ASCII). -/
def jsLower (s : String) : String := String.mk (s.data.map Char.toLower)

/-- `p` is a prefix of `s` (character lists). -/
def isPrefixL : List Char → List Char → Bool
  | [], _ => true
  | _ :: _, [] => false
  | p :: ps, c :: cs => p == c && isPrefixL ps cs

/-- Model of `String.prototype.startsWith` / `String.startsWith`. -/
def strStartsWith (s pat : String) : Bool := isPrefixL pat.data s.data

/-- Model of `String.prototype.endsWith` / `String.endsWith`. -/
def strEndsWith (s pat : String) : Bool := isPrefixL pat.data.reverse s.data.reverse

/-- `pat` occurs as a contiguous substring of `s`. -/
def containsSubAux : List Char → List Char → Bool
  | pat, [] => isPrefixL pat []
  | pat, c :: cs => isPrefixL pat (c :: cs) || containsSubAux pat cs

/-- Model of JavaScript `String.prototype.trim`: strip leading and trailing
whitespace. -/
def jsTrim (s : String) : String :=
  String.mk (((s.data.dropWhile Char.isWhitespace).reverse.dropWhile
    Char.isWhitespace).reverse)

/-- Split on a single-character separator (model of `String.split` /
`String.splitOn` for the separators the loader uses). -/
def splitOnChar (sep : Char) (s : String) : List String :=
  (s.data.foldr (fun c acc =>
    if c = sep then [] :: acc
    else match acc with
      | g :: gs => (c :: g) :: gs
      | [] => [[c]]) [[]]).map String.mk

/-- Join words with single spaces. -/
def joinWords : List String → String
  | [] => ""
  | [w] => w
  | w :: x :: rest => w ++ " " ++ joinWords (x :: rest)

/-- `newSchema.type` update: a string-valued `type` is uppercased, any other
value is kept (`typeof newSchema.type === 'string' ? ...toUpperCase() : ...`). -/
def upperIfString : JValue → JValue
  | .str s => .str (jsUpper s)
  | v => v

/- Termination helper lemmas for mapSchema. -/

theorem jsize_lt_of_mem_fields {l : List (String × JValue)} {kv : String × JValue}
    (h : kv ∈ l) : jsize kv.2 < jsize (.obj l) := by
  obtain ⟨a, b⟩ := kv
  induction h with
  | head as => simp [jsize, jsizeF]; omega
  | tail c _ ih =>
    obtain ⟨c1, c2⟩ := c
    simp [jsize, jsizeF] at ih ⊢
    omega

theorem jsize_lt_of_mem_arr {xs : List JValue} {v : JValue}
    (h : v ∈ xs) : jsize v < jsize (.arr xs) := by
  induction h with
  | head as => simp [jsize, jsizeA]; omega
  | tail c _ ih =>
    simp [jsize, jsizeA] at ih ⊢
    omega

theorem mem_of_jlook {l : List (String × JValue)} {k : String} {v : JValue}
    (h : jlook l k = some v) : (k, v) ∈ l := by
  unfold jlook at h
  cases hf : l.find? (fun p => p.1 == k) with
  | none => rw [hf] at h; cases h
  | some p =>
    rw [hf] at h
    have hmem := List.mem_of_find?_eq_some hf
    have hpred := List.find?_some hf
    cases h
    have : p.1 = k := by simpa using hpred
    cases p with
    | mk a b => simp at this ⊢; rw [← this]; simpa using hmem

theorem mem_of_mem_enumFrom {i : Nat} {xs : List JValue} {kv : String × JValue}
    (h : kv ∈ enumFrom i xs) : kv.2 ∈ xs := by
  induction xs generalizing i with
  | nil => cases h
  | cons hd tl ih =>
    simp [enumFrom] at h
    rcases h with h | h
    · rw [h]; simp
    · exact List.mem_cons_of_mem _ (ih h)

/-- Values reachable from the spread of `p` are no larger than `p`. -/
theorem jsize_le_of_mem_toSpread {p : JValue} {kv : String × JValue}
    (h : kv ∈ toSpread p) : jsize kv.2 ≤ jsize p := by
  cases p with
  | obj l => exact Nat.le_of_lt (jsize_lt_of_mem_fields h)
  | arr xs => exact Nat.le_of_lt (jsize_lt_of_mem_arr (mem_of_mem_enumFrom h))
  | str t =>
    have hv := mem_of_mem_enumFrom h
    simp [toSpread] at hv
    obtain ⟨c, _, hc⟩ := hv
    rw [← hc]
    simp [jsize]
  | null => cases h
  | undef => cases h
  | bool b => cases h
  | num n => cases h

theorem jsize_lt_of_jlook {l : List (String × JValue)} {k : String} {v : JValue}
    (h : jlook l k = some v) : jsize v < jsize (.obj l) :=
  jsize_lt_of_mem_fields (mem_of_jlook h)

/--
The Gemini adapter's `mapSchema` helper (src/execution/gemini.ts).

```
const mapSchema = (s) => \x7b
    if (!s) return undefined;
    const newSchema = \x7b ...s \x7d;
    if (newSchema.type) \x7b
        newSchema.type = (typeof newSchema.type === 'string')
            ? newSchema.type.toUpperCase() : newSchema.type;
    \x7d
    if (newSchema.properties) \x7b
        const newProps = \x7b\x7d;
        for (const [key, val] of Object.entries(newSchema.properties))
            newProps[key] = mapSchema(val);
        newSchema.properties = newProps;
    \x7d
    if (newSchema.items) newSchema.items = mapSchema(newSchema.items);
    delete newSchema.additionalProperties;
    delete newSchema['$schema'];
    return newSchema;
\x7d
```

Falsy inputs return `undefined`.  A truthy non-object input spreads to an
object with numeric string keys (or no keys at all for numbers/booleans);
none of those keys is `type`, `properties`, `items`,
`additionalProperties` or `$schema`, so no conditional fires and the two
deletes are no-ops — those branches are therefore written directly as the
spread followed by the (no-op) deletes.  The object branch reads
`newSchema.type` / `.properties` / `.items` before any of those three
distinct keys has been overwritten, so the reads are written against the
original field list `l`.
-/
def mapSchema : JValue → JValue
  | .null => .undef
  | .undef => .undef
  | .bool b =>
    if b then .obj (delKey (delKey (toSpread (.bool b)) "additionalProperties") "$schema")
    else .undef
  | .num n =>
    if n = 0 then .undef
    else .obj (delKey (delKey (toSpread (.num n)) "additionalProperties") "$schema")
  | .str t =>
    if t = "" then .undef
    else .obj (delKey (delKey (toSpread (.str t)) "additionalProperties") "$schema")
  | .arr xs => .obj (delKey (delKey (toSpread (.arr xs)) "additionalProperties") "$schema")
  | .obj l =>
    let l1 :=
      match jlook l "type" with
      | some t => if truthy t then setKey l "type" (upperIfString t) else l
      | none => l
    let l2 :=
      match hp : jlook l "properties" with
      | some p =>
        if truthy p then
          setKey l1 "properties"
            (.obj ((toSpread p).attach.map (fun kv => (kv.1.1, mapSchema kv.1.2))))
        else l1
      | none => l1
    let l3 :=
      match hi : jlook l "items" with
      | some it => if truthy it then setKey l2 "items" (mapSchema it) else l2
      | none => l2
    .obj (delKey (delKey l3 "additionalProperties") "$schema")
termination_by s => jsize s
decreasing_by
  · exact Nat.lt_of_le_of_lt (jsize_le_of_mem_toSpread kv.2) (jsize_lt_of_jlook hp)
  · exact jsize_lt_of_jlook hi

/- Association-list lemmas. -/

theorem jlook_nil (k : String) : jlook [] k = none := rfl

theorem jlook_cons (a : String) (b : JValue) (l : List (String × JValue)) (k : String) :
    jlook ((a, b) :: l) k = if a == k then some b else jlook l k := by
  by_cases h : a == k <;> simp [jlook, List.find?, h]

theorem jlook_setKey_self (l : List (String × JValue)) (k : String) (v : JValue) :
    jlook (setKey l k v) k = some v := by
  induction l with
  | nil => simp [setKey, jlook_cons]
  | cons hd tl ih =>
    obtain ⟨a, b⟩ := hd
    by_cases h : a == k
    · simp [setKey, h, jlook_cons]
    · simp [setKey, h, jlook_cons, ih]

theorem jlook_setKey_ne (l : List (String × JValue)) (k k' : String) (v : JValue)
    (h : k' ≠ k) : jlook (setKey l k v) k' = jlook l k' := by
  induction l with
  | nil =>
    have : ¬(k == k') := by simpa using fun hh => h hh.symm
    simp [setKey, jlook_cons, this, jlook_nil]
  | cons hd tl ih =>
    obtain ⟨a, b⟩ := hd
    by_cases ha : a == k
    · have hak : a = k := by simpa using ha
      subst hak
      have : ¬(a == k') := by simpa using fun hh => h hh.symm
      simp [setKey, jlook_cons, this]
    · simp [setKey, ha, jlook_cons, ih]

theorem jlook_delKey_self (l : List (String × JValue)) (k : String) :
    jlook (delKey l k) k = none := by
  induction l with
  | nil => rfl
  | cons hd tl ih =>
    obtain ⟨a, b⟩ := hd
    by_cases ha : a = k
    · simp [delKey, ha, ih]
    · simp [delKey, ha, jlook_cons, ih]

theorem jlook_delKey_ne (l : List (String × JValue)) (k k' : String)
    (h : k' ≠ k) : jlook (delKey l k) k' = jlook l k' := by
  induction l with
  | nil => rfl
  | cons hd tl ih =>
    obtain ⟨a, b⟩ := hd
    by_cases ha : a = k
    · subst ha
      have hak : ¬(a = k') := fun hh => h hh.symm
      simp [delKey, jlook_cons, hak, ih]
    · simp [delKey, ha, jlook_cons, ih]

theorem attach_map_pair {α β γ : Type} (l : List (α × β)) (f : β → γ) :
    l.attach.map (fun kv => (kv.1.1, f kv.1.2)) = l.map (fun kv => (kv.1, f kv.2)) := by
  induction l with
  | nil => rfl
  | cons hd tl ih => simpa using ih

theorem attach_map_fn {α β : Type} (l : List α) (f : α → β) :
    l.attach.map (fun v => f v.1) = l.map f := by
  induction l with
  | nil => rfl
  | cons hd tl ih => simpa using ih

mutual

/--
The value of `mapSchema`'s ARGUMENT after the call, for claim C9.

`mapSchema` copies its argument shallowly and performs every write
(`newSchema.type = ...`, `newProps[key] = ...`, `newSchema.properties = ...`,
`newSchema.items = ...`, `delete newSchema...`) on the fresh copy `newSchema`
or the fresh object `newProps`, never on the argument.  The only way the
argument could change is through the recursive calls, which receive values
shared with the argument: the entries of `newSchema.properties`
(`Object.entries`, hence the fields of an object, the elements of an array,
or fresh one-character strings for a string) and `newSchema.items`.  This
function therefore rebuilds the argument with each shared sub-value replaced
by that sub-value's own state after its recursive call; objects are taken
with unique keys as in JS.  Claim C9 is the statement that this equals the
original argument.
-/
def mapSchemaArg : JValue → JValue
  | .obj l =>
    .obj (l.attach.map (fun kv =>
      if kv.1.1 = "properties" ∧ truthy kv.1.2 then (kv.1.1, spreadArg kv.1.2)
      else if kv.1.1 = "items" ∧ truthy kv.1.2 then (kv.1.1, mapSchemaArg kv.1.2)
      else kv.1))
  | v => v
termination_by s => jsize s
decreasing_by
  · exact jsize_lt_of_mem_fields kv.2
  · exact jsize_lt_of_mem_fields kv.2

/-- State, after the recursive `mapSchema` calls, of the value found at the
`properties` key: every value reachable through `Object.entries` is passed
to a recursive call.  Entries of a string are fresh singleton strings, so a
string (and any other primitive) is returned untouched. -/
def spreadArg : JValue → JValue
  | .obj l => .obj (l.attach.map (fun kv => (kv.1.1, mapSchemaArg kv.1.2)))
  | .arr xs => .arr (xs.attach.map (fun v => mapSchemaArg v.1))
  | v => v
termination_by s => jsize s
decreasing_by
  · exact jsize_lt_of_mem_fields kv.2
  · exact jsize_lt_of_mem_arr v.2

end

theorem mapSchemaArg_spreadArg_id :
    ∀ n s, jsize s ≤ n → mapSchemaArg s = s ∧ spreadArg s = s := by
  intro n
  induction n with
  | zero =>
    intro s hs
    exfalso
    cases s <;> simp [jsize] at hs
  | succ n ih =>
    intro s hs
    constructor
    · cases s with
      | obj l =>
        rw [mapSchemaArg]
        have hmap := attach_map_fn l (fun kv =>
          if kv.1 = "properties" ∧ truthy kv.2 then (kv.1, spreadArg kv.2)
          else if kv.1 = "items" ∧ truthy kv.2 then (kv.1, mapSchemaArg kv.2)
          else kv)
        refine congrArg JValue.obj (Eq.trans hmap ?_)
        have hpt : ∀ kv : String × JValue, kv ∈ l →
            (if kv.1 = "properties" ∧ truthy kv.2 then (kv.1, spreadArg kv.2)
             else if kv.1 = "items" ∧ truthy kv.2 then (kv.1, mapSchemaArg kv.2)
             else kv) = id kv := by
          intro kv hkv
          obtain ⟨k1, k2⟩ := kv
          have hlt := jsize_lt_of_mem_fields hkv
          have hle : jsize k2 ≤ n := by simp only [] at hlt; omega
          have hkv2 := ih k2 hle
          by_cases h1 : k1 = "properties" ∧ truthy k2
          · simp [h1.1, h1.2, hkv2.2]
          · by_cases h2 : k1 = "items" ∧ truthy k2
            · simp [h1, h2.1, h2.2, hkv2.1]
            · simp [h1, h2]
        rw [List.map_congr_left hpt, List.map_id]
      | null => simp [mapSchemaArg]
      | undef => simp [mapSchemaArg]
      | bool b => simp [mapSchemaArg]
      | num m => simp [mapSchemaArg]
      | str t => simp [mapSchemaArg]
      | arr xs => simp [mapSchemaArg]
    · cases s with
      | obj l =>
        rw [spreadArg]
        have hmap := attach_map_fn l (fun kv => (kv.1, mapSchemaArg kv.2))
        refine congrArg JValue.obj (Eq.trans hmap ?_)
        have hpt : ∀ kv : String × JValue, kv ∈ l →
            (kv.1, mapSchemaArg kv.2) = id kv := by
          intro kv hkv
          obtain ⟨k1, k2⟩ := kv
          have hlt := jsize_lt_of_mem_fields hkv
          have hle : jsize k2 ≤ n := by simp only [] at hlt; omega
          simp [(ih k2 hle).1]
        rw [List.map_congr_left hpt, List.map_id]
      | arr xs =>
        rw [spreadArg]
        have hmap := attach_map_fn xs mapSchemaArg
        refine congrArg JValue.arr (Eq.trans hmap ?_)
        have hpt : ∀ v : JValue, v ∈ xs → mapSchemaArg v = id v := by
          intro v hv
          have hlt := jsize_lt_of_mem_arr hv
          have hle : jsize v ≤ n := by simp only [] at hlt; omega
          simp [(ih v hle).1]
        rw [List.map_congr_left hpt, List.map_id]
      | null => simp [spreadArg]
      | undef => simp [spreadArg]
      | bool b => simp [spreadArg]
      | num m => simp [spreadArg]
      | str t => simp [spreadArg]

/-- Well-formed JSON-Schema objects: every node reached by recursing through
`properties` values and `items` is itself an object (the shape
`zod-to-json-schema` and hand-written JSON Schemas produce). -/
inductive SchemaLike : JValue → Prop where
  | mk (l : List (String × JValue))
      (hp1 : ∀ p, jlook l "properties" = some p → ∃ l₂, p = JValue.obj l₂)
      (hp2 : ∀ l₂, jlook l "properties" = some (JValue.obj l₂) →
        ∀ kv, kv ∈ l₂ → SchemaLike kv.2)
      (hi : ∀ it, jlook l "items" = some it → SchemaLike it) :
      SchemaLike (.obj l)

mutual

/-- The normalization relation of claim C1 between an input schema node and
the corresponding output node: `additionalProperties` and `$schema` are
gone, a string-valued `type` has been uppercased, and the relation holds
recursively for every `properties` entry and for `items`. -/
inductive SchemaNormed : JValue → JValue → Prop where
  | mk (l l' : List (String × JValue))
      (hap : jlook l' "additionalProperties" = none)
      (hds : jlook l' "$schema" = none)
      (hty : ∀ ts, jlook l "type" = some (.str ts) →
        jlook l' "type" = some (.str (jsUpper ts)))
      (hpr : ∀ l₂, jlook l "properties" = some (.obj l₂) →
        OptFieldsNormed l₂ (jlook l' "properties"))
      (hit : ∀ it, jlook l "items" = some it →
        OptSchemaNormed it (jlook l' "items")) :
      SchemaNormed (.obj l) (.obj l')

/-- The output holds a normalized counterpart of the given node. -/
inductive OptSchemaNormed : JValue → Option JValue → Prop where
  | mk (a b : JValue) : SchemaNormed a b → OptSchemaNormed a (some b)

/-- The output holds an object whose fields normalize the given fields. -/
inductive OptFieldsNormed : List (String × JValue) → Option JValue → Prop where
  | mk (l₂ l₂' : List (String × JValue)) :
      FieldsNormed l₂ l₂' → OptFieldsNormed l₂ (some (.obj l₂'))

/-- Pointwise: keys are preserved in order and values are normalized. -/
inductive FieldsNormed : List (String × JValue) → List (String × JValue) → Prop where
  | nil : FieldsNormed [] []
  | cons (k : String) (v v' : JValue) (rest rest' : List (String × JValue)) :
      SchemaNormed v v' → FieldsNormed rest rest' →
      FieldsNormed ((k, v) :: rest) ((k, v') :: rest')

end

theorem fieldsNormed_map :
    ∀ l₂ : List (String × JValue),
      (∀ kv ∈ l₂, SchemaNormed kv.2 (mapSchema kv.2)) →
      FieldsNormed l₂ (l₂.map (fun kv => (kv.1, mapSchema kv.2))) := by
  intro l₂
  induction l₂ with
  | nil => intro _; exact FieldsNormed.nil
  | cons hd tl ihl =>
    intro h
    obtain ⟨k, v⟩ := hd
    exact FieldsNormed.cons k v _ tl _ (h (k, v) (by simp))
      (ihl (fun kv hkv => h kv (List.mem_cons_of_mem _ hkv)))

theorem attach_map_mapSchema (l : List (String × JValue)) :
    l.attach.map (fun kv => (kv.1.1, mapSchema kv.1.2)) =
      l.map (fun kv => (kv.1, mapSchema kv.2)) :=
  attach_map_pair l mapSchema

/-- The `type` step of `mapSchema`'s object case, as a standalone function. -/
def typeStep (l : List (String × JValue)) : List (String × JValue) :=
  match jlook l "type" with
  | some t => if truthy t then setKey l "type" (upperIfString t) else l
  | none => l

/-- The `properties` step of `mapSchema`'s object case (the discriminant is
the lookup in the original object). -/
def propsStep (l1 : List (String × JValue)) (p? : Option JValue) :
    List (String × JValue) :=
  match p? with
  | some p =>
    if truthy p then
      setKey l1 "properties" (.obj ((toSpread p).map (fun kv => (kv.1, mapSchema kv.2))))
    else l1
  | none => l1

/-- The `items` step of `mapSchema`'s object case. -/
def itemsStep (l2 : List (String × JValue)) (i? : Option JValue) :
    List (String × JValue) :=
  match i? with
  | some it => if truthy it then setKey l2 "items" (mapSchema it) else l2
  | none => l2

/-- Unfolding of `mapSchema` on an object into the three steps followed by
the two deletes. -/
theorem mapSchema_obj_eq (l : List (String × JValue)) :
    mapSchema (.obj l) =
      .obj (delKey (delKey
        (itemsStep (propsStep (typeStep l) (jlook l "properties")) (jlook l "items"))
        "additionalProperties") "$schema") := by
  rw [mapSchema]
  simp only [typeStep, propsStep, itemsStep, attach_map_mapSchema]
  repeat' split
  all_goals simp_all [attach_map_mapSchema]

theorem jlook_typeStep_ne (l : List (String × JValue)) (k : String)
    (h : k ≠ "type") : jlook (typeStep l) k = jlook l k := by
  unfold typeStep
  repeat' split
  all_goals first
    | rfl
    | rw [jlook_setKey_ne _ _ _ _ h]

theorem jlook_propsStep_ne (l1 : List (String × JValue)) (p? : Option JValue)
    (k : String) (h : k ≠ "properties") : jlook (propsStep l1 p?) k = jlook l1 k := by
  unfold propsStep
  repeat' split
  all_goals first
    | rfl
    | rw [jlook_setKey_ne _ _ _ _ h]

theorem jlook_itemsStep_ne (l2 : List (String × JValue)) (i? : Option JValue)
    (k : String) (h : k ≠ "items") : jlook (itemsStep l2 i?) k = jlook l2 k := by
  unfold itemsStep
  repeat' split
  all_goals first
    | rfl
    | rw [jlook_setKey_ne _ _ _ _ h]

theorem jlook_typeStep_true (l : List (String × JValue)) (t : JValue)
    (ht : jlook l "type" = some t) (htt : truthy t = true) :
    jlook (typeStep l) "type" = some (upperIfString t) := by
  unfold typeStep
  simp only [ht, htt, if_true]
  rw [jlook_setKey_self]

theorem jlook_typeStep_false (l : List (String × JValue)) (t : JValue)
    (ht : jlook l "type" = some t) (htt : truthy t = false) :
    jlook (typeStep l) "type" = some t := by
  unfold typeStep
  simp only [ht, htt, Bool.false_eq_true, if_false]

theorem jlook_propsStep_self (l1 : List (String × JValue)) (p : JValue)
    (htp : truthy p = true) :
    jlook (propsStep l1 (some p)) "properties" =
      some (.obj ((toSpread p).map (fun kv => (kv.1, mapSchema kv.2)))) := by
  unfold propsStep
  simp only [htp, if_true]
  rw [jlook_setKey_self]

theorem jlook_itemsStep_self (l2 : List (String × JValue)) (it : JValue)
    (hti : truthy it = true) :
    jlook (itemsStep l2 (some it)) "items" = some (mapSchema it) := by
  unfold itemsStep
  simp only [hti, if_true]
  rw [jlook_setKey_self]

/-- Lookup-level characterization of `mapSchema` on an object: the result is
an object with `additionalProperties` and `$schema` removed, a truthy `type`
uppercased (kept verbatim when falsy), a truthy `properties` replaced by the
entry-wise recursive image, and a truthy `items` replaced recursively. -/
theorem mapSchema_obj_char (l : List (String × JValue)) :
    ∃ L, mapSchema (.obj l) = .obj L
    ∧ jlook L "additionalProperties" = none
    ∧ jlook L "$schema" = none
    ∧ (∀ t, jlook l "type" = some t → truthy t = true →
        jlook L "type" = some (upperIfString t))
    ∧ (∀ t, jlook l "type" = some t → truthy t = false →
        jlook L "type" = some t)
    ∧ (∀ p, jlook l "properties" = some p → truthy p = true →
        jlook L "properties" =
          some (.obj ((toSpread p).map (fun kv => (kv.1, mapSchema kv.2)))))
    ∧ (∀ it, jlook l "items" = some it → truthy it = true →
        jlook L "items" = some (mapSchema it)) := by
  refine ⟨_, mapSchema_obj_eq l, ?_, ?_, ?_, ?_, ?_, ?_⟩
  · rw [jlook_delKey_ne _ _ _ (by decide), jlook_delKey_self]
  · rw [jlook_delKey_self]
  · intro t ht htt
    rw [jlook_delKey_ne _ _ _ (by decide), jlook_delKey_ne _ _ _ (by decide),
      jlook_itemsStep_ne _ _ _ (by decide), jlook_propsStep_ne _ _ _ (by decide),
      jlook_typeStep_true l t ht htt]
  · intro t ht htt
    rw [jlook_delKey_ne _ _ _ (by decide), jlook_delKey_ne _ _ _ (by decide),
      jlook_itemsStep_ne _ _ _ (by decide), jlook_propsStep_ne _ _ _ (by decide),
      jlook_typeStep_false l t ht htt]
  · intro p hp htp
    rw [jlook_delKey_ne _ _ _ (by decide), jlook_delKey_ne _ _ _ (by decide),
      jlook_itemsStep_ne _ _ _ (by decide), hp, jlook_propsStep_self _ p htp]
  · intro it hit htit
    rw [jlook_delKey_ne _ _ _ (by decide), jlook_delKey_ne _ _ _ (by decide),
      hit, jlook_itemsStep_self _ it htit]

theorem mapSchema_normalizes_aux :
    ∀ n s, jsize s ≤ n → SchemaLike s → SchemaNormed s (mapSchema s) := by
  intro n
  induction n with
  | zero =>
    intro s hs _
    exfalso
    cases s <;> simp [jsize] at hs
  | succ n ih =>
    intro s hs hlike
    cases hlike with
    | mk l hp1 hp2 hi =>
      obtain ⟨L, hL, hap, hds, htyT, htyF, hprC, hitC⟩ := mapSchema_obj_char l
      rw [hL]
      refine SchemaNormed.mk l L hap hds ?_ ?_ ?_
      · intro ts hts
        by_cases htt : truthy (.str ts) = true
        · exact htyT _ hts htt
        · have h0 : ts = "" := by
            simp [truthy] at htt
            exact htt
          have hres := htyF _ hts (by simp [truthy, h0])
          rw [hres, h0]
          rfl
      · intro l₂ hl₂
        have hres := hprC _ hl₂ rfl
        rw [hres]
        have hmap : toSpread (.obj l₂) = l₂ := rfl
        rw [hmap]
        refine OptFieldsNormed.mk _ _ (fieldsNormed_map l₂ ?_)
        intro kv hkv
        have h1 := jsize_lt_of_mem_fields hkv
        have h2 := jsize_lt_of_jlook hl₂
        exact ih kv.2 (by omega) (hp2 _ hl₂ kv hkv)
      · intro it hitl
        have hlikeIt := hi it hitl
        have htri : truthy it = true := by cases hlikeIt; rfl
        have hres := hitC _ hitl htri
        rw [hres]
        have h2 := jsize_lt_of_jlook hitl
        exact OptSchemaNormed.mk _ _ (ih it (by omega) hlikeIt)

/-- `mapSchema` satisfies the normalization relation on every well-formed
JSON-Schema object. -/
theorem mapSchema_normalizes (s : JValue) (h : SchemaLike s) :
    SchemaNormed s (mapSchema s) :=
  mapSchema_normalizes_aux (jsize s) s (Nat.le_refl _) h

/- ---------------------------------------------------------------------
   JSON serialization (model of `JSON.stringify(v, null, 2)` used by the
   Anthropic adapter to return structured tool output as text).
   --------------------------------------------------------------------- -/

/-- Minimal JSON string escaping (quote, backslash and the common control
characters; sufficient for the values the adapters serialize). -/
def escapeJson (s : String) : String :=
  s.data.foldl (fun acc c =>
    acc ++ (if c = '"' then "\\\""
      else if c = '\\' then "\\\\"
      else if c = '\n' then "\\n"
      else if c = '\r' then "\\r"
      else if c = '\t' then "\\t"
      else String.singleton c)) ""

/-- Two-space indentation at nesting depth `d`. -/
def indentStr (d : Nat) : String := String.mk (List.replicate (2 * d) ' ')

mutual

/-- Model of `JSON.stringify(v, null, 2)`: pretty-printed JSON with
two-space indentation.  `undefined` inside containers is rendered as
`null` (the adapters never serialize `undefined`). -/
def stringifyVal : Nat → JValue → String
  | _, .null => "null"
  | _, .undef => "null"
  | _, .bool b => if b then "true" else "false"
  | _, .num n => toString n
  | _, .str s => "\"" ++ escapeJson s ++ "\""
  | _, .arr [] => "[]"
  | d, .arr (x :: xs) =>
    "[\n" ++ stringifyArr (d + 1) (x :: xs) ++ "\n" ++ indentStr d ++ "]"
  | _, .obj [] => "\x7b\x7d"
  | d, .obj (f :: fs) =>
    "\x7b\n" ++ stringifyFields (d + 1) (f :: fs) ++ "\n" ++ indentStr d ++ "\x7d"

/-- Array elements, one per line. -/
def stringifyArr : Nat → List JValue → String
  | _, [] => ""
  | d, [x] => indentStr d ++ stringifyVal d x
  | d, x :: y :: xs =>
    indentStr d ++ stringifyVal d x ++ ",\n" ++ stringifyArr d (y :: xs)

/-- Object fields, one per line. -/
def stringifyFields : Nat → List (String × JValue) → String
  | _, [] => ""
  | d, [(k, v)] => indentStr d ++ "\"" ++ escapeJson k ++ "\": " ++ stringifyVal d v
  | d, (k, v) :: g :: fs =>
    indentStr d ++ "\"" ++ escapeJson k ++ "\": " ++ stringifyVal d v ++ ",\n" ++
      stringifyFields d (g :: fs)

end

/-- `JSON.stringify(input, null, 2)` as used on tool output. -/
def stringifyJson (v : JValue) : String := stringifyVal 0 v

/- ---------------------------------------------------------------------
   ChatRequest model (provider-neutral wire object, spec section 3/6):
   messages `\x7brole, content, name?\x7d`, optional model, optional
   responseFormat `\x7btype: 'json_schema', json_schema: \x7bname,
   description?, schema\x7d\x7d`.  Message content is a string (the
   formatter always emits strings; the adapters' `typeof ... === 'string'`
   fallback is for non-string content and is never exercised here).
   --------------------------------------------------------------------- -/

/-- Chat roles of the provider-neutral request. -/
inductive Role where
  | system : Role
  | developer : Role
  | user : Role
  | assistant : Role
deriving DecidableEq, Repr

/-- Wire name of a role. -/
def roleString : Role → String
  | .system => "system"
  | .developer => "developer"
  | .user => "user"
  | .assistant => "assistant"

/-- A provider-neutral chat message. -/
structure ChatMessage where
  role : Role
  content : String
  name : Option String := none
deriving DecidableEq, Repr

/-- The `json_schema` descriptor of a structured-output request. -/
structure JsonSchemaDescriptor where
  name : String
  description : Option String
  schema : JValue
deriving Repr

/-- The provider-neutral `responseFormat` field. -/
structure ResponseFormat where
  type : String
  json_schema : JsonSchemaDescriptor
deriving Repr

/-- The provider-neutral chat request handed to an execution adapter. -/
structure ChatRequest where
  messages : List ChatMessage
  model : Option String := none
  responseFormat : Option ResponseFormat := none
deriving Repr

/- ---------------------------------------------------------------------
   OpenAI adapter (src/execution/openai.ts).
   --------------------------------------------------------------------- -/

/-- A message of the OpenAI `chat.completions` payload. -/
structure OpenAIMessage where
  role : String
  content : String
  name : Option String
deriving DecidableEq, Repr

/-- The OpenAI request body fields built by the adapter (the fields the
claims concern: messages and response_format; `model`, `temperature` and
`max_tokens` are passed through from options). -/
structure OpenAIBody where
  model : String
  messages : List OpenAIMessage
  response_format : Option ResponseFormat
deriving Repr

/-- Message conversion of `OpenAIProvider.execute`:
`const role = msg.role === 'developer' ? 'system' : msg.role` followed by
content/name passthrough. -/
def openaiMessages (msgs : List ChatMessage) : List OpenAIMessage :=
  msgs.map (fun m =>
    let role := if m.role = Role.developer then Role.system else m.role
    ⟨roleString role, m.content, m.name⟩)

/-- The OpenAI request body: converted messages, response_format passed
through unchanged.  `model` is the resolved model name
(`options.model || request.model || 'gpt-4'`). -/
def buildOpenAIBody (req : ChatRequest) (model : String) : OpenAIBody :=
  ⟨model, openaiMessages req.messages, req.responseFormat⟩

/- ---------------------------------------------------------------------
   Anthropic adapter (src/execution/anthropic.ts).
   --------------------------------------------------------------------- -/

/-- Whether a message is routed to the separate system prompt. -/
def isSysDev (m : ChatMessage) : Bool :=
  m.role = Role.system || m.role = Role.developer

/-- A message of the Anthropic `messages.create` payload (only `user` and
`assistant` roles are ever put here by the adapter). -/
structure AnthropicMessage where
  role : Role
  content : String
deriving DecidableEq, Repr

/-- A tool definition of the Anthropic payload. -/
structure AnthropicTool where
  name : String
  description : String
  input_schema : JValue
deriving Repr

/-- The `tool_choice` field of the Anthropic payload. -/
structure AnthropicToolChoice where
  type : String
  name : String
deriving DecidableEq, Repr

/-- The Anthropic request body fields built by the adapter.  There is no
response-format field: the payload object literal contains only `model`,
`system`, `messages`, `max_tokens`, `temperature` and (for structured
output) `tools` and `tool_choice`. -/
structure AnthropicBody where
  model : String
  system : Option String
  messages : List AnthropicMessage
  tools : Option (List AnthropicTool)
  tool_choice : Option AnthropicToolChoice
deriving Repr

/-- The adapter's message loop: system/developer contents are appended to
`systemPrompt` (each followed by a blank line), the rest are pushed onto
the messages array with their role and content. -/
def anthropicFold (msgs : List ChatMessage) : String × List AnthropicMessage :=
  msgs.foldl (fun acc m =>
    if isSysDev m then (acc.1 ++ m.content ++ "\n\n", acc.2)
    else (acc.1, acc.2 ++ [⟨m.role, m.content⟩])) ("", [])

/-- Default tool description
(`request.responseFormat.json_schema.description || "Output data in this
structured format"`; the JS `||` also replaces an empty string). -/
def anthropicToolDescription (d : Option String) : String :=
  match d with
  | some s => if s = "" then "Output data in this structured format" else s
  | none => "Output data in this structured format"

/-- The Anthropic request body: separate trimmed system prompt (omitted when
it trims to the empty string: `systemPrompt.trim() || undefined`),
user/assistant messages, and for a `json_schema` response format a single
forced tool carrying the JSON schema.  `model` is the resolved model name. -/
def buildAnthropicBody (req : ChatRequest) (model : String) : AnthropicBody :=
  let fold := anthropicFold req.messages
  let st := jsTrim fold.1
  { model := model
    system := if st = "" then none else some st
    messages := fold.2
    tools :=
      match req.responseFormat with
      | some rf =>
        if rf.type = "json_schema" then
          some [⟨rf.json_schema.name, anthropicToolDescription rf.json_schema.description,
            rf.json_schema.schema⟩]
        else none
      | none => none
    tool_choice :=
      match req.responseFormat with
      | some rf =>
        if rf.type = "json_schema" then some ⟨"tool", rf.json_schema.name⟩
        else none
      | none => none }

/-- A content block of an Anthropic response. -/
inductive ContentBlock where
  | text : String → ContentBlock
  | tool_use : JValue → ContentBlock
  | other : ContentBlock
deriving Repr

/-- `block.type === 'tool_use'`. -/
def isToolUse : ContentBlock → Bool
  | .tool_use _ => true
  | _ => false

/-- Response-content extraction of `AnthropicProvider.execute`: for a
`json_schema` request the first `tool_use` block's input is serialized with
`JSON.stringify(input, null, 2)` (text stays empty if none is found);
otherwise the first block's text is used (empty for a non-text block). -/
def anthropicExtractContent (req : ChatRequest) (blocks : List ContentBlock) : String :=
  if (match req.responseFormat with
      | some rf => rf.type == "json_schema"
      | none => false) then
    match blocks.find? isToolUse with
    | some (.tool_use input) => stringifyJson input
    | _ => ""
  else
    match blocks.head? with
    | some (.text t) => t
    | _ => ""

/- ---------------------------------------------------------------------
   Gemini adapter (src/execution/gemini.ts): generationConfig shaping.
   --------------------------------------------------------------------- -/

/-- The `generationConfig` fields set by the Gemini adapter. -/
structure GenerationConfig where
  responseMimeType : Option String
  responseSchema : Option JValue
deriving Repr

/-- generationConfig construction: for a `json_schema` response format the
mime type is set to `application/json` and the schema is mapped through
`mapSchema`; otherwise the config stays empty. -/
def geminiGenerationConfig (req : ChatRequest) : GenerationConfig :=
  match req.responseFormat with
  | some rf =>
    if rf.type = "json_schema" then
      ⟨some "application/json", some (mapSchema rf.json_schema.schema)⟩
    else ⟨none, none⟩
  | none => ⟨none, none⟩

/- ---------------------------------------------------------------------
   Loader (src/loader.ts): header extraction.

   The header regex is /^(#\x7b1,6\x7d)\s+(.+?)(?:\n|$)/ with the m flag:
   the anchor ^ matches at position 0 and after every newline; `\s`
   includes the newline itself; `.` does not match a newline; the lazy
   group stops at the first position where a newline follows or the
   input ends.  The matcher below implements exactly that backtracking
   behaviour on the character list of the text.
   --------------------------------------------------------------------- -/

/-- Model of the JS `\s` class (space, tab, CR, LF — the whitespace the
loader's markdown inputs contain). -/
def isWS (c : Char) : Bool := c.isWhitespace

/-- Length of the leading run of characters satisfying `p`. -/
def countRun (p : Char → Bool) : List Char → Nat
  | [] => 0
  | c :: rest => if p c then countRun p rest + 1 else 0

/-- Backtracking step for the case in which everything after the hashes up
to the end of the input is whitespace: the greedy `\s+` gives back one
character at a time (from `w` down to 1) until the lazy group can consume a
non-newline character; the group then runs to the next newline or the end.
Returns (consumed length, group 2). -/
def tryBT (h : Nat) (afterHash : List Char) : Nat → Option (Nat × List Char)
  | 0 => none
  | w + 1 =>
    match afterHash.drop (w + 1) with
    | c :: rest =>
      if c ≠ '\n' then
        let g := (c :: rest).takeWhile (fun x => x ≠ '\n')
        let afterG := (c :: rest).drop g.length
        some (h + (w + 1) + g.length + (if afterG.head? = some '\n' then 1 else 0), g)
      else tryBT h afterHash w
    | [] => tryBT h afterHash w

/-- Attempt to match the header regex at the start of `cs` (an anchor
position).  `1-6` hashes, at least one `\s`, then the lazy group up to the
next newline (consumed when present) or the end.  Returns (consumed length,
group 2). -/
def matchHeaderAt (cs : List Char) : Option (Nat × List Char) :=
  let h := countRun (fun c => c = '#') cs
  if 1 ≤ h ∧ h ≤ 6 then
    let afterHash := cs.drop h
    let w := countRun isWS afterHash
    if w = 0 then none
    else
      match afterHash.drop w with
      | c :: rest =>
        let g := (c :: rest).takeWhile (fun x => x ≠ '\n')
        let afterG := (c :: rest).drop g.length
        some (h + w + g.length + (if afterG.head? = some '\n' then 1 else 0), g)
      | [] => tryBT h afterHash (w - 1)
  else none

/-- The anchor positions of the multiline `^`: the suffixes starting at
position 0 and right after every newline, in position order. -/
def anchorTail (pos : Nat) : List Char → List (Nat × List Char)
  | [] => []
  | c :: rest =>
    if c = '\n' then (pos + 1, rest) :: anchorTail (pos + 1) rest
    else anchorTail (pos + 1) rest

/-- All anchors of a text. -/
def anchorsOf (cs : List Char) : List (Nat × List Char) :=
  (0, cs) :: anchorTail 0 cs

/-- Try the anchors in order (the regex engine's left-to-right search) and
return the first match as (start, consumed length, group 2). -/
def findHeaderScan : List (Nat × List Char) → Option (Nat × Nat × List Char)
  | [] => none
  | (pos, cs) :: rest =>
    match matchHeaderAt cs with
    | some lg => some (pos, lg.1, lg.2)
    | none => findHeaderScan rest

/-- First match of the header regex over the text: (start, end, group 2). -/
def headerMatch (text : String) : Option (Nat × Nat × String) :=
  match findHeaderScan (anchorsOf text.data) with
  | some plg => some (plg.1, plg.1 + plg.2.1, String.mk plg.2.2)
  | none => none

/-- `extractFirstHeader` (src/loader.ts): the trimmed text of the first
header, or null when there is no match (the JS guard `match && match[2]`
also rejects an empty group, which the regex cannot produce). -/
def extractFirstHeader (text : String) : Option String :=
  match headerMatch text with
  | some seg => if seg.2.2 = "" then none else some (jsTrim seg.2.2)
  | none => none

/-- `removeFirstHeader` (src/loader.ts): `content.replace(headerRegex, '')`
(first match only — the regex has no g flag) followed by `.trim()`. -/
def removeFirstHeader (text : String) : String :=
  match headerMatch text with
  | some seg => jsTrim (String.mk (text.data.take seg.1 ++ text.data.drop seg.2.1))
  | none => text

/-- The per-file title/content computation of `load` (src/loader.ts
193-221): for a `.md` file whose content contains a (truthy) header, the
first header's text becomes the sub-section title and the matched header is
removed; otherwise the filename is the title and the whole content the
single item. -/
def loadFileSection (file : String) (content : String) : String × String :=
  if strEndsWith file ".md" then
    match extractFirstHeader content with
    | some h => if h = "" then (file, content) else (h, removeFirstHeader content)
    | none => (file, content)
  else (file, content)

/- ---------------------------------------------------------------------
   Loader: safe ignore patterns.
   --------------------------------------------------------------------- -/

/-- Spec-level detector of nested quantifiers: a `+` or `*` applied to a
group that itself contains a `+` or `*` (the shape of `(a+)+`).  Modelled
from the spec: the ReDoS-safe regex layer (pressurelid, not part of this
repository's sources) rejects pathological patterns — nested quantifiers,
catastrophic alternation, excessive length — before compilation. -/
def nestedQuantAux : List Char → Bool → Bool
  | [], _ => false
  | '(' :: rest, _ => nestedQuantAux rest false
  | ')' :: c :: rest, sawQ =>
    if (c = '+' ∨ c = '*') ∧ sawQ then true else nestedQuantAux (c :: rest) sawQ
  | [')'], _ => false
  | c :: rest, sawQ => nestedQuantAux rest (sawQ || c = '+' || c = '*')

/-- A pattern contains a nested quantifier. -/
def hasNestedQuantifier (p : String) : Bool := nestedQuantAux p.data false

/-- Model of `new RegExp("\\.(e1|e2|...)$", 'i').test`: some listed
extension, preceded by a dot, ends the string, case-insensitively. -/
def extMatcher (exts : List String) (s : String) : Bool :=
  exts.any (fun e => strEndsWith (jsLower s) ("." ++ e))

/-- Literal substring containment (fallback matcher model for patterns
without regex metacharacters). -/
def strContainsLit (s pat : String) : Bool :=
  containsSubAux pat.data s.data

/-- Model of JS `new RegExp(pattern, flags).test` for the regex patterns
the loader's documentation lists as defaults (the regex engine itself is
the JS runtime, not repository code): `^\..*` matches strings starting
with a dot; the extension alternations match a listed suffix
case-insensitively; any other pattern is approximated as literal substring
search (honouring the `i` flag). -/
def jsRegexTest (pattern : String) (ci : Bool) : String → Bool :=
  if pattern = "^\\..*" then fun s => strStartsWith s "."
  else if pattern = "\\.(jpg|jpeg|png|gif|bmp|svg|webp|ico)$" then
    extMatcher ["jpg", "jpeg", "png", "gif", "bmp", "svg", "webp", "ico"]
  else if pattern = "\\.(mp3|wav|ogg|aac|flac)$" then
    extMatcher ["mp3", "wav", "ogg", "aac", "flac"]
  else if pattern = "\\.(mp4|mov|avi|mkv|webm)$" then
    extMatcher ["mp4", "mov", "avi", "mkv", "webm"]
  else if pattern = "\\.(pdf|doc|docx|xls|xlsx|ppt|pptx)$" then
    extMatcher ["pdf", "doc", "docx", "xls", "xlsx", "ppt", "pptx"]
  else if pattern = "\\.(zip|tar|gz|rar|7z)$" then
    extMatcher ["zip", "tar", "gz", "rar", "7z"]
  else fun s =>
    if ci then strContainsLit (jsLower s) (jsLower pattern) else strContainsLit s pattern

/-- Modelled from the spec: `SafeRegex.create(pattern, 'i')` of
@utilarium/pressurelid (configured with maxLength 500) — rejects nested
quantifiers and over-long patterns, otherwise compiles the pattern. -/
def safeRegexCreate (pattern : String) (ci : Bool) : Option (String → Bool) :=
  if hasNestedQuantifier pattern || pattern.length > 500 then none
  else some (jsRegexTest pattern ci)

/-- Glob-safe characters: names, `*`, `?`, dots, slashes, dashes,
underscores. -/
def globOkChar (c : Char) : Bool :=
  c.isAlphanum || c = '*' || c = '?' || c = '.' || c = '/' || c = '-' || c = '_'

/-- Straightforward glob matching (`*` any sequence, `?` one character). -/
def globMatch : List Char → List Char → Bool
  | [], [] => true
  | [], _ :: _ => false
  | '*' :: ps, [] => globMatch ps []
  | '*' :: ps, c :: cs => globMatch ps (c :: cs) || globMatch ('*' :: ps) cs
  | '?' :: _, [] => false
  | '?' :: ps, _ :: cs => globMatch ps cs
  | _ :: _, [] => false
  | p :: ps, c :: cs => p == c && globMatch ps cs
termination_by ps cs => (ps.length, cs.length)

/-- Modelled from the spec: `SafeRegex.globToRegex` of pressurelid — the
glob-to-regex fallback translator; a pattern carrying regex
metacharacters that are not glob syntax (such as the parentheses and
quantifiers of `(a+)+`) is not a glob and is rejected as unsafe
(Scenario D: `(a+)+` fails this fallback too). -/
def globToRegexModel (pattern : String) : Option (String → Bool) :=
  if pattern.data.all globOkChar then
    some (fun s => globMatch pattern.data s.data)
  else none

/-- One pattern through the compilation pipeline of
`createSafeIgnorePatterns` (src/loader.ts 52-71): try the safe regex layer
with the 'i' flag, fall back to the glob translator, otherwise nothing. -/
def compilePattern (pattern : String) : Option (String → Bool) :=
  match safeRegexCreate pattern true with
  | some r => some r
  | none =>
    match globToRegexModel pattern with
    | some r => some r
    | none => none

/-- `createSafeIgnorePatterns` (src/loader.ts): compiles each pattern
(keeping order), logging a warning and contributing no matcher for a
pattern that fails both layers; returns (matchers, warning log). -/
def createSafeIgnorePatterns (patterns : List String) :
    List (String → Bool) × List String :=
  patterns.foldr (fun p acc =>
    match compilePattern p with
    | some r => (r :: acc.1, acc.2)
    | none => (acc.1, ("Invalid or unsafe ignore pattern \"" ++ p ++ "\"") :: acc.2))
    ([], [])

/-- Modelled from the spec: DEFAULT_IGNORE_PATTERNS (src/constants.ts is
absent from the source tree; the list is the one the repository's loader
documentation states: dotfiles and common image/audio/video/document/
archive extensions). -/
def DEFAULT_IGNORE_PATTERNS : List String :=
  ["^\\..*",
   "\\.(jpg|jpeg|png|gif|bmp|svg|webp|ico)$",
   "\\.(mp3|wav|ogg|aac|flac)$",
   "\\.(mp4|mov|avi|mkv|webm)$",
   "\\.(pdf|doc|docx|xls|xlsx|ppt|pptx)$",
   "\\.(zip|tar|gz|rar|7z)$"]

/- ---------------------------------------------------------------------
   Loader: directory processing.
   --------------------------------------------------------------------- -/

/-- Model of `path.join` on the forward-slash paths the loader handles. -/
def pjoin (a b : String) : String := a ++ "/" ++ b

/-- Model of `path.basename`. -/
def basename (p : String) : String := ((splitOnChar '/' p).getLast?).getD p

/-- The ignore filter of `load` (src/loader.ts 187-191): a listed file
survives unless some compiled pattern matches the bare filename or the
joined path. -/
def filterFiles (dir : String) (files : List String)
    (matchers : List (String → Bool)) : List String :=
  files.filter (fun f => !(matchers.any (fun r => r f || r (pjoin dir f))))

/-- Sections and items as built by the loader.  Modelled from the spec:
`createSection`/`Section.add` of riotprompt.ts are not under src/; a
section is a title plus an ordered item list and `add` appends (string
items and nested sections are the only shapes the loader produces;
weights/parameters play no role in the loader claims). -/
inductive PNode where
  | text : String → PNode
  | sec : String → List PNode → PNode
deriving Repr

/-- `Section.add`: append an item, returning the section. -/
def addItem (s : PNode) (item : PNode) : PNode :=
  match s with
  | .sec t items => .sec t (items ++ [item])
  | other => other

/-- The storage capability used by the loader (util/storage is an I/O seam;
each operation can fail with an error message). -/
structure StorageM where
  existsF : String → Except String Bool
  readFile : String → Except String String
  listFiles : String → Except String (List String)
  isFile : String → Except String Bool

/-- Per-directory body of `load` (src/loader.ts 154-224): `context.md`
handling, listing, ignore filtering, one sub-section per surviving file. -/
def processDirectory (st : StorageM) (patterns : List String) (dir : String) :
    Except String PNode := do
  let dirName := basename dir
  let contextFile := pjoin dir "context.md"
  let ex ← st.existsF contextFile
  let mainSection ←
    if ex then do
      let mainContextContent ← st.readFile contextFile
      match extractFirstHeader mainContextContent with
      | some h =>
        if h = "" then
          pure (PNode.sec dirName [PNode.text mainContextContent])
        else
          pure (PNode.sec h [PNode.text (removeFirstHeader mainContextContent)])
      | none => pure (PNode.sec dirName [PNode.text mainContextContent])
    else pure (PNode.sec dirName [])
  let files ← st.listFiles dir
  let matchers := (createSafeIgnorePatterns patterns).1
  let filteredFiles := filterFiles dir files matchers
  filteredFiles.foldlM (fun acc f =>
    if f = "context.md" then pure acc
    else do
      let isf ← st.isFile (pjoin dir f)
      if isf then do
        let fileContent ← st.readFile (pjoin dir f)
        let ts := loadFileSection f fileContent
        pure (addItem acc (PNode.sec ts.1 [PNode.text ts.2]))
      else pure acc) mainSection

/-- Modelled from the spec: the message of the safe error produced by
spotclean's `createSafeError` and logged by the loader — the original
message with absolute path segments redacted, behind the loader's fixed
log prefix.  Represented word-wise so the no-absolute-path property is a
property of every word. -/
def safeErrorWords (e : String) : List String :=
  ["Error", "processing", "context", "directory:"] ++
    (splitOnChar ' ' e).map (fun w => if strStartsWith w "/" then "[redacted-path]" else w)

/-- The logged error line for a failed directory. -/
def safeErrorMessage (e : String) : String :=
  joinWords (safeErrorWords e)

/-- `load` (src/loader.ts): every directory is processed inside try/catch;
a failure is sanitized and logged and the loop continues; successful
sections accumulate in order. -/
def loadModel (st : StorageM) (patterns : List String) (dirs : List String) :
    List PNode × List String :=
  dirs.foldl (fun acc dir =>
    match processDirectory st patterns dir with
    | .ok s => (acc.1 ++ [s], acc.2)
    | .error e => (acc.1, acc.2 ++ [safeErrorMessage e])) ([], [])

/- =====================================================================
   Claim theorems.
   ===================================================================== -/

/-- Objects with neither `properties` nor `items` are schema-like. -/
theorem schemaLike_noRec (l : List (String × JValue))
    (h1 : jlook l "properties" = none) (h2 : jlook l "items" = none) :
    SchemaLike (.obj l) := by
  refine SchemaLike.mk l ?_ ?_ ?_
  · intro p hp; rw [h1] at hp; cases hp
  · intro l₂ hp; rw [h1] at hp; cases hp
  · intro it hi; rw [h2] at hi; cases hi

/-- The Scenario C input schema. -/
def exSchemaC1 : JValue :=
  .obj [("type", .str "object"),
        ("properties", .obj [("x", .obj [("type", .str "string")])])]

theorem exSchemaC1_like : SchemaLike exSchemaC1 := by
  refine SchemaLike.mk _ ?_ ?_ ?_
  · intro p hp
    have hp' : some (JValue.obj [("x", JValue.obj [("type", JValue.str "string")])])
        = some p := hp
    injection hp' with h
    exact ⟨_, h.symm⟩
  · intro l₂ hp kv hkv
    have hp' : some (JValue.obj [("x", JValue.obj [("type", JValue.str "string")])])
        = some (JValue.obj l₂) := hp
    injection hp' with h
    injection h with h
    rw [← h] at hkv
    simp at hkv
    rw [hkv]
    exact schemaLike_noRec _ rfl rfl
  · intro it hi
    have hi' : (none : Option JValue) = some it := hi
    cases hi'

/-- A structured-output request carrying the Scenario C schema. -/
def reqC1 : ChatRequest :=
  ⟨[⟨Role.user, "make x", none⟩], none,
    some ⟨"json_schema", ⟨"shape", none, exSchemaC1⟩⟩⟩

/-- C1: for every ChatRequest whose responseFormat has type `json_schema`,
the Gemini adapter attaches the `mapSchema` image of the JSON schema as
`generationConfig.responseSchema`; on every well-formed schema the transform
satisfies `SchemaNormed`: at each node reached through `properties` values
and `items`, a string-valued `type` is uppercased and the
`additionalProperties` and `$schema` keys are removed; in particular the
Scenario C schema maps to its uppercase counterpart with no stripped key at
any level. -/
theorem gemini_schema_normalization (req : ChatRequest) (rf : ResponseFormat)
    (hrf : req.responseFormat = some rf) (hty : rf.type = "json_schema")
    (hs : SchemaLike rf.json_schema.schema) :
    (geminiGenerationConfig req).responseSchema = some (mapSchema rf.json_schema.schema)
    ∧ SchemaNormed rf.json_schema.schema (mapSchema rf.json_schema.schema)
    ∧ mapSchema exSchemaC1 =
      .obj [("type", .str "OBJECT"),
        ("properties", .obj [("x", .obj [("type", .str "STRING")])])] := by
  refine ⟨?_, mapSchema_normalizes _ hs, ?_⟩
  · simp [geminiGenerationConfig, hrf, hty]
  · simp [exSchemaC1, mapSchema, jlook, truthy, upperIfString, setKey, delKey,
      toSpread, List.find?, List.attach, List.attachWith, List.pmap]
    decide

theorem gemini_schema_normalization_witness :
    (geminiGenerationConfig reqC1).responseSchema = some (mapSchema exSchemaC1)
    ∧ SchemaNormed exSchemaC1 (mapSchema exSchemaC1) := by
  have h := gemini_schema_normalization reqC1
    ⟨"json_schema", ⟨"shape", none, exSchemaC1⟩⟩ rfl rfl exSchemaC1_like
  exact ⟨h.1, h.2.1⟩

/-- C9: the Gemini schema mapping is non-destructive — the value of the
argument after a `mapSchema` call (every write of the source targets the
fresh copy or the fresh `newProps`; recursive calls thread through the
shared `properties` entries and `items`) is the argument itself. -/
theorem mapSchema_nondestructive : ∀ s : JValue, mapSchemaArg s = s :=
  fun s => (mapSchemaArg_spreadArg_id (jsize s) s (Nat.le_refl _)).1

/-- A schema request whose descriptor carries an empty description. -/
def reqC2bad : ChatRequest :=
  ⟨[⟨Role.user, "hi", none⟩], none,
    some ⟨"json_schema", ⟨"shape", some "", .obj [("type", .str "object")]⟩⟩⟩

/-- C2 counterexample: with `description` present but empty, the claim
says the tool description equals that provided description (the empty
string); the adapter's `||` default replaces it, so the sent description is
the fixed default instead. -/
theorem anthropic_description_counterexample :
    ((buildAnthropicBody reqC2bad "claude-3-opus-20240229").tools.map
        (fun ts => ts.map (fun t => t.description)))
      = some ["Output data in this structured format"]
    ∧ ¬ ("Output data in this structured format" = "") := by
  exact ⟨rfl, by decide⟩

/-- C2 (amended): for a `json_schema` responseFormat the Anthropic adapter
sends no response-format field (the built body has none); it sends exactly
one tool named after the descriptor, whose input_schema is the descriptor's
schema and whose description is the provided description when present and
non-empty (a fixed default otherwise), forces that tool by name through
`tool_choice`, and on response serializes the first tool_use block's input
as the result content. -/
theorem anthropic_forced_tool (req : ChatRequest) (rf : ResponseFormat)
    (model : String)
    (hrf : req.responseFormat = some rf) (hty : rf.type = "json_schema") :
    (buildAnthropicBody req model).tools =
      some [⟨rf.json_schema.name,
        anthropicToolDescription rf.json_schema.description,
        rf.json_schema.schema⟩]
    ∧ (∀ d, rf.json_schema.description = some d → ¬ (d = "") →
        anthropicToolDescription rf.json_schema.description = d)
    ∧ (rf.json_schema.description = none →
        anthropicToolDescription rf.json_schema.description =
          "Output data in this structured format")
    ∧ (buildAnthropicBody req model).tool_choice =
        some ⟨"tool", rf.json_schema.name⟩
    ∧ (∀ blocks input, blocks.find? isToolUse = some (.tool_use input) →
        anthropicExtractContent req blocks = stringifyJson input) := by
  refine ⟨?_, ?_, ?_, ?_, ?_⟩
  · simp [buildAnthropicBody, hrf, hty]
  · intro d hd hne
    simp [anthropicToolDescription, hd, hne]
  · intro hd
    simp [anthropicToolDescription, hd]
  · simp [buildAnthropicBody, hrf, hty]
  · intro blocks input hfind
    simp [anthropicExtractContent, hrf, hty, hfind]

/-- A well-formed structured-output request for the witness. -/
def reqC2good : ChatRequest :=
  ⟨[⟨Role.user, "hi", none⟩], none,
    some ⟨"json_schema", ⟨"shape", some "the shape", .obj [("type", .str "object")]⟩⟩⟩

theorem anthropic_forced_tool_witness :
    (buildAnthropicBody reqC2good "m").tools =
      some [⟨"shape", anthropicToolDescription (some "the shape"),
        .obj [("type", .str "object")]⟩]
    ∧ anthropicToolDescription (some "the shape") = "the shape"
    ∧ (buildAnthropicBody reqC2good "m").tool_choice = some ⟨"tool", "shape"⟩
    ∧ anthropicExtractContent reqC2good [ContentBlock.tool_use (.obj [("x", .str "1")])]
        = stringifyJson (.obj [("x", .str "1")]) := by
  have h := anthropic_forced_tool reqC2good
    ⟨"json_schema", ⟨"shape", some "the shape", .obj [("type", .str "object")]⟩⟩
    "m" rfl rfl
  exact ⟨h.1, h.2.1 "the shape" rfl (by decide), h.2.2.2.1,
    h.2.2.2.2 [ContentBlock.tool_use (.obj [("x", .str "1")])] _ rfl⟩

/-- C3 counterexample: a `developer`-role message is not submitted as-is —
the adapter rewrites its role to `system` before sending. -/
theorem openai_developer_role_counterexample :
    (buildOpenAIBody ⟨[⟨Role.developer, "be terse", none⟩], none, none⟩ "gpt-4").messages
      ≠ [⟨roleString Role.developer, "be terse", none⟩] := by
  decide

/-- C3 (amended): the OpenAI adapter submits the messages in order with
content and name unchanged; roles are kept except `developer`, which is
sent as `system`; `responseFormat` is passed through unchanged as
`response_format`. -/
theorem openai_messages_passthrough (req : ChatRequest) (model : String) :
    (buildOpenAIBody req model).messages =
      req.messages.map (fun m =>
        ⟨if m.role = Role.developer then "system" else roleString m.role,
          m.content, m.name⟩)
    ∧ (buildOpenAIBody req model).response_format = req.responseFormat := by
  refine ⟨?_, rfl⟩
  unfold buildOpenAIBody openaiMessages
  apply List.map_congr_left
  intro m _
  by_cases h : m.role = Role.developer <;> simp [h, roleString]

/-- Claim-side description of the extracted system prompt: the
system/developer contents concatenated in message order, each followed by a
blank line. -/
def concatSysDev : List ChatMessage → String
  | [] => ""
  | m :: rest =>
    if isSysDev m then m.content ++ "\n\n" ++ concatSysDev rest
    else concatSysDev rest

theorem anthropicFold_spec (msgs : List ChatMessage) :
    ∀ s0 acc0,
      msgs.foldl (fun acc m =>
        if isSysDev m then (acc.1 ++ m.content ++ "\n\n", acc.2)
        else (acc.1, acc.2 ++ [(⟨m.role, m.content⟩ : AnthropicMessage)])) (s0, acc0)
      = (s0 ++ concatSysDev msgs,
         acc0 ++ (msgs.filter (fun m => !(isSysDev m))).map
           (fun m => (⟨m.role, m.content⟩ : AnthropicMessage))) := by
  induction msgs with
  | nil => intro s0 acc0; simp [concatSysDev]
  | cons m rest ih =>
    intro s0 acc0
    rw [List.foldl_cons]
    by_cases h : isSysDev m
    · rw [if_pos h, ih]
      rw [concatSysDev, if_pos h]
      refine congrArg₂ Prod.mk ?_ ?_
      · simp [String.append_assoc]
      · rw [List.filter_cons]
        simp [h]
    · rw [if_neg h, ih]
      rw [concatSysDev, if_neg h]
      refine congrArg₂ Prod.mk rfl ?_
      rw [List.filter_cons]
      simp [h]

/-- The system field of the built Anthropic body: the trimmed concatenation
when non-empty, omitted otherwise. -/
theorem buildAnthropic_system_char (req : ChatRequest) (model : String) :
    (buildAnthropicBody req model).system =
      (if jsTrim (concatSysDev req.messages) = "" then none
       else some (jsTrim (concatSysDev req.messages))) := by
  show (let fold := anthropicFold req.messages
        let st := jsTrim fold.1
        if st = "" then none else some st) = _
  rw [anthropicFold, anthropicFold_spec req.messages "" []]
  simp

/-- The messages field of the built Anthropic body: the non-system messages
in order with role and content preserved. -/
theorem buildAnthropic_messages_char (req : ChatRequest) (model : String) :
    (buildAnthropicBody req model).messages =
      (req.messages.filter (fun m =>
        m.role = Role.user ∨ m.role = Role.assistant)).map
        (fun m => (⟨m.role, m.content⟩ : AnthropicMessage)) := by
  show (anthropicFold req.messages).2 = _
  rw [anthropicFold, anthropicFold_spec req.messages "" []]
  simp only [List.nil_append]
  congr 1
  apply List.filter_congr
  intro m _
  cases hm : m.role <;> simp [isSysDev, hm]

/-- C4: the Anthropic adapter concatenates the contents of all system- and
developer-role messages in message order into the single separate `system`
string field (trimmed; omitted when empty), and the messages it sends are
exactly those with role `user` or `assistant`, roles and contents preserved
in order. -/
theorem anthropic_system_split (req : ChatRequest) (model : String) :
    (buildAnthropicBody req model).system =
      (if jsTrim (concatSysDev req.messages) = "" then none
       else some (jsTrim (concatSysDev req.messages)))
    ∧ (buildAnthropicBody req model).messages =
      (req.messages.filter (fun m =>
        m.role = Role.user ∨ m.role = Role.assistant)).map
        (fun m => (⟨m.role, m.content⟩ : AnthropicMessage))
    ∧ (∀ m ∈ req.messages, isSysDev m = false →
        m.role = Role.user ∨ m.role = Role.assistant) := by
  refine ⟨buildAnthropic_system_char req model,
    buildAnthropic_messages_char req model, ?_⟩
  intro m _ h
  cases hm : m.role <;> simp [isSysDev, hm] at h ⊢

/-- A request mixing system, developer, user and assistant messages. -/
def reqC4 : ChatRequest :=
  ⟨[⟨Role.system, "sys", none⟩, ⟨Role.user, "hi", none⟩,
    ⟨Role.developer, "dev", none⟩, ⟨Role.assistant, "yo", none⟩], none, none⟩

theorem anthropic_system_split_witness :
    (buildAnthropicBody reqC4 "m").system = some "sys\n\ndev"
    ∧ (buildAnthropicBody reqC4 "m").messages =
        [⟨Role.user, "hi"⟩, ⟨Role.assistant, "yo"⟩]
    ∧ (Role.user = Role.user ∨ Role.user = Role.assistant) := by
  have h := anthropic_system_split reqC4 "m"
  refine ⟨?_, ?_, ?_⟩
  · rw [h.1]; decide
  · rw [h.2.1]; decide
  · exact h.2.2 ⟨Role.user, "hi", none⟩ (by decide) (by decide)

theorem concatSysDev_empty (msgs : List ChatMessage)
    (h : msgs.filter (fun m => isSysDev m) = []) : concatSysDev msgs = "" := by
  induction msgs with
  | nil => rfl
  | cons m rest ih =>
    by_cases hm : isSysDev m
    · rw [List.filter_cons, if_pos hm] at h
      cases h
    · rw [List.filter_cons, if_neg hm] at h
      simp [concatSysDev, hm, ih h]

/-- C10: when no message has role system or developer, or when the
concatenated system/developer contents trim to nothing (only whitespace),
the Anthropic adapter omits the `system` field entirely rather than
sending an empty string. -/
theorem anthropic_system_omitted (req : ChatRequest) (model : String)
    (h : req.messages.filter (fun m => isSysDev m) = []
      ∨ jsTrim (concatSysDev req.messages) = "") :
    (buildAnthropicBody req model).system = none := by
  rw [buildAnthropic_system_char req model]
  rcases h with h | h
  · rw [concatSysDev_empty req.messages h]
    decide
  · rw [h]
    decide

/-- A request whose only system content is whitespace. -/
def reqC10 : ChatRequest :=
  ⟨[⟨Role.system, "   ", none⟩, ⟨Role.user, "hi", none⟩], none, none⟩

theorem anthropic_system_omitted_witness :
    (buildAnthropicBody reqC10 "m").system = none :=
  anthropic_system_omitted reqC10 "m" (Or.inr (by decide))

/- Helper lemmas for the loader's header matcher. -/

theorem countRun_all_append (p : Char → Bool) (A l : List Char)
    (hA : ∀ c ∈ A, p c = true) :
    countRun p (A ++ l) = A.length + countRun p l := by
  induction A with
  | nil => simp
  | cons a as ih =>
    have ha := hA a (by simp)
    rw [List.cons_append, countRun, ha]
    simp only [if_true]
    rw [ih (fun c hc => hA c (by simp [hc]))]
    simp only [List.length_cons]
    omega

theorem countRun_head_false (p : Char → Bool) (c : Char) (l : List Char)
    (hc : p c = false) : countRun p (c :: l) = 0 := by
  rw [countRun, hc]
  simp

theorem takeWhile_all_append (p : Char → Bool) (A tail : List Char)
    (hA : ∀ c ∈ A, p c = true) :
    (A ++ tail).takeWhile p = A ++ tail.takeWhile p := by
  induction A with
  | nil => simp
  | cons a as ih =>
    have ha := hA a (by simp)
    simp only [List.cons_append, List.takeWhile_cons, ha, if_true]
    rw [ih (fun c hc => hA c (by simp [hc]))]

theorem drop_append_offset {α : Type} (A : List α) (n : Nat) (B : List α) :
    (A ++ B).drop (A.length + n) = B.drop n := by
  induction A with
  | nil => simp
  | cons a as ih =>
    simp only [List.cons_append, List.length_cons]
    rw [show as.length + 1 + n = (as.length + n) + 1 from by omega]
    rw [List.drop_succ_cons]
    exact ih

/-- No header match can start at a position holding a character other
than `#`: the `#`-run is empty, so the 1-6 bound fails. -/
theorem matchHeaderAt_head_not_hash (c : Char) (cs : List Char)
    (hc : ¬(c = '#')) : matchHeaderAt (c :: cs) = none := by
  simp only [matchHeaderAt]
  have h0 : countRun (fun x => x = '#') (c :: cs) = 0 := by
    rw [countRun]
    simp [hc]
  rw [h0]
  rw [if_neg (by omega)]

theorem str_ne_empty_of_cons (t : String) (c : Char) (cs : List Char)
    (hd : t.data = c :: cs) : ¬ (t = "") := by
  intro h
  rw [h] at hd
  cases hd

theorem jsTrim_ne_empty (t : String) (c : Char) (cs : List Char)
    (hd : t.data = c :: cs) (hc : c.isWhitespace = false) : ¬ (jsTrim t = "") := by
  intro h
  unfold jsTrim at h
  rw [hd] at h
  rw [List.dropWhile_cons] at h
  rw [hc] at h
  simp only [Bool.false_eq_true, if_false] at h
  have hdata : (((c :: cs).reverse.dropWhile Char.isWhitespace).reverse) = [] := by
    have := congrArg String.data h
    simpa using this
  rw [List.reverse_eq_nil_iff] at hdata
  rw [List.dropWhile_eq_nil_iff] at hdata
  have hmem : c ∈ (c :: cs).reverse := by simp
  have := hdata c hmem
  rw [hc] at this
  cases this

/-- The header regex matches at the start of
`'#'*k ++ ws ++ t ++ tail` where `ws` is a nonempty whitespace run, `t` a
nonempty newline-free group not starting with whitespace, and `tail` is
empty or starts with a newline: the hash run is `k`, the whole of `ws`
feeds `\s+`, group 2 is exactly `t`, and a present newline is consumed. -/
theorem matchHeaderAt_heading (k : Nat) (ws : List Char) (t : String)
    (tail : List Char)
    (hk1 : 1 ≤ k) (hk2 : k ≤ 6)
    (hws0 : ws ≠ []) (hws : ∀ c ∈ ws, isWS c = true)
    (ht0 : t.data ≠ [])
    (htn : ∀ c ∈ t.data, ¬(c = '\n'))
    (hth : ∀ c, t.data.head? = some c → c.isWhitespace = false)
    (htail : tail = [] ∨ ∃ r, tail = '\n' :: r) :
    matchHeaderAt (List.replicate k '#' ++ (ws ++ (t.data ++ tail)))
      = some (k + ws.length + t.data.length
          + (if tail.head? = some '\n' then 1 else 0), t.data) := by
  obtain ⟨c0, cs, hd⟩ : ∃ c0 cs, t.data = c0 :: cs := by
    cases h : t.data with
    | nil => exact absurd h ht0
    | cons a b => exact ⟨a, b, rfl⟩
  have hc0 : c0.isWhitespace = false := hth c0 (by rw [hd]; rfl)
  obtain ⟨w0, ws', hw⟩ : ∃ w0 ws', ws = w0 :: ws' := by
    cases h : ws with
    | nil => exact absurd h hws0
    | cons a b => exact ⟨a, b, rfl⟩
  have hw0 : isWS w0 = true := hws w0 (by rw [hw]; simp)
  simp only [matchHeaderAt]
  have hrun : countRun (fun c => c = '#')
      (List.replicate k '#' ++ (ws ++ (t.data ++ tail))) = k := by
    rw [countRun_all_append _ _ _
      (fun c hc => by simp [List.eq_of_mem_replicate hc])]
    rw [List.length_replicate, hw, List.cons_append]
    have hne : ¬(w0 = '#') := by
      intro h
      rw [h] at hw0
      exact absurd hw0 (by decide)
    rw [countRun_head_false _ _ _ (by simp [hne])]
    omega
  rw [hrun, if_pos ⟨hk1, hk2⟩]
  have hdropk : (List.replicate k '#' ++ (ws ++ (t.data ++ tail))).drop k
      = ws ++ (t.data ++ tail) := by
    have h0 := List.drop_left (List.replicate k '#') (ws ++ (t.data ++ tail))
    rw [List.length_replicate] at h0
    exact h0
  rw [hdropk]
  have hWrun : countRun isWS (ws ++ (t.data ++ tail)) = ws.length := by
    rw [countRun_all_append _ _ _ hws, hd, List.cons_append,
      countRun_head_false _ _ _ (by simp [isWS, hc0])]
    omega
  rw [hWrun]
  have hWne : ¬(ws.length = 0) := by
    intro h
    exact hws0 (List.length_eq_zero.mp h)
  rw [if_neg hWne]
  have hdropw : (ws ++ (t.data ++ tail)).drop ws.length = t.data ++ tail :=
    List.drop_left ws (t.data ++ tail)
  rw [hdropw, hd]
  simp only [List.cons_append]
  have htake : ((c0 :: (cs ++ tail)).takeWhile (fun x => x ≠ '\n'))
      = c0 :: cs := by
    have htailtw : tail.takeWhile (fun x => x ≠ '\n') = ([] : List Char) := by
      rcases htail with h | ⟨r, h⟩
      · subst h
        rfl
      · subst h
        simp [List.takeWhile_cons]
    have h0 := takeWhile_all_append (fun x => x ≠ '\n') (c0 :: cs) tail
      (fun c hc => by
        have := htn c (by rw [hd]; exact hc)
        simp [this])
    rw [List.cons_append] at h0
    rw [h0, htailtw, List.append_nil]
  rw [htake]
  have hdropg : ((c0 :: (cs ++ tail)).drop ((c0 :: cs).length)) = tail := by
    have h0 := List.drop_left (c0 :: cs) tail
    rw [List.cons_append] at h0
    exact h0
  rw [hdropg, ← hd]

/-- State-passing scan over a prefix: `afterNl` records whether the current
position is a multiline anchor (the start of the text or the position right
after a newline); the scan demands that no anchor position holds a `#`. -/
def noHashAtAnchors : Bool → List Char → Bool
  | _, [] => true
  | afterNl, c :: rest =>
    if afterNl = true ∧ c = '#' then false
    else noHashAtAnchors (decide (c = '\n')) rest

/-- No line of `pre` (its first line included) begins with `#`.  Since every
header match must begin with a `#`, this means the regex matches at no
anchor inside `pre`, so the first match of `pre ++ H` lies in `H`. -/
def noHeadingStart (pre : List Char) : Bool := noHashAtAnchors true pre

theorem noHashAtAnchors_step (b : Bool) (c : Char) (rest : List Char) :
    noHashAtAnchors b (c :: rest)
      = if b = true ∧ c = '#' then false
        else noHashAtAnchors (decide (c = '\n')) rest := rfl

theorem noHashAtAnchors_cons (b : Bool) (c : Char) (rest : List Char)
    (h : noHashAtAnchors b (c :: rest) = true) :
    ¬(b = true ∧ c = '#')
    ∧ noHashAtAnchors (decide (c = '\n')) rest = true := by
  by_cases hc : b = true ∧ c = '#'
  · rw [noHashAtAnchors_step, if_pos hc] at h
    cases h
  · rw [noHashAtAnchors_step, if_neg hc] at h
    exact ⟨hc, h⟩

theorem anchorTail_cons (pos : Nat) (c : Char) (rest : List Char) :
    anchorTail pos (c :: rest)
      = if c = '\n' then (pos + 1, rest) :: anchorTail (pos + 1) rest
        else anchorTail (pos + 1) rest := rfl

theorem findHeaderScan_cons (pos : Nat) (cs : List Char)
    (rest : List (Nat × List Char)) :
    findHeaderScan ((pos, cs) :: rest)
      = match matchHeaderAt cs with
        | some lg => some (pos, lg.1, lg.2)
        | none => findHeaderScan rest := rfl

/-- Splitting the anchor list of `pre ++ H` when `pre` ends in a newline and
no line of `pre` starts with `#`: the anchors strictly inside `pre` all fail
to match (their suffix starts with a non-`#` character), and the anchor at
position `pre.length` carries exactly the suffix `H`. -/
theorem anchorTail_split (pre : List Char) :
    ∀ (s : Bool) (pos : Nat) (H : List Char),
      pre.getLast? = some '\n' →
      noHashAtAnchors s pre = true →
      ∃ A B, anchorTail pos (pre ++ H) = A ++ ((pos + pre.length, H) :: B)
        ∧ ∀ a ∈ A, matchHeaderAt a.2 = none := by
  induction pre with
  | nil =>
    intro s pos H hlast _
    simp at hlast
  | cons c rest ih =>
    intro s pos H hlast hna
    obtain ⟨hhead, hcont⟩ := noHashAtAnchors_cons s c rest hna
    by_cases hc : c = '\n'
    · subst hc
      cases rest with
      | nil =>
        refine ⟨[], anchorTail (pos + 1) H, ?_, ?_⟩
        · show anchorTail pos ('\n' :: ([] ++ H))
            = [] ++ ((pos + ['\n'].length, H) :: anchorTail (pos + 1) H)
          rw [anchorTail_cons, if_pos rfl]
          simp
        · intro a ha
          exact absurd ha (List.not_mem_nil a)
      | cons r0 rest' =>
        have hlast' : (r0 :: rest').getLast? = some '\n' := by
          rw [List.getLast?_cons_cons] at hlast
          exact hlast
        have hcont' : noHashAtAnchors true (r0 :: rest') = true := by
          simpa using hcont
        obtain ⟨hh0, _⟩ := noHashAtAnchors_cons true r0 rest' hcont'
        have hr0 : ¬(r0 = '#') := fun h => hh0 ⟨rfl, h⟩
        obtain ⟨A', B', heq, hfail⟩ := ih true (pos + 1) H hlast' hcont'
        refine ⟨(pos + 1, (r0 :: rest') ++ H) :: A', B', ?_, ?_⟩
        · show anchorTail pos ('\n' :: ((r0 :: rest') ++ H))
            = ((pos + 1, (r0 :: rest') ++ H) :: A')
              ++ ((pos + ('\n' :: r0 :: rest').length, H) :: B')
          rw [anchorTail_cons, if_pos rfl, heq, List.cons_append]
          have hpos : pos + 1 + (r0 :: rest').length
              = pos + ('\n' :: r0 :: rest').length := by
            simp only [List.length_cons]
            omega
          rw [hpos]
          simp only [List.cons_append]
        · intro a ha
          rcases List.mem_cons.mp ha with ha | ha
          · subst ha
            simp only [List.cons_append]
            exact matchHeaderAt_head_not_hash r0 _ hr0
          · exact hfail a ha
    · cases rest with
      | nil =>
        simp at hlast
        exact absurd hlast hc
      | cons r0 rest' =>
        have hlast' : (r0 :: rest').getLast? = some '\n' := by
          rw [List.getLast?_cons_cons] at hlast
          exact hlast
        have hcont' : noHashAtAnchors false (r0 :: rest') = true := by
          simpa [hc] using hcont
        obtain ⟨A', B', heq, hfail⟩ := ih false (pos + 1) H hlast' hcont'
        refine ⟨A', B', ?_, hfail⟩
        show anchorTail pos (c :: ((r0 :: rest') ++ H))
          = A' ++ ((pos + (c :: r0 :: rest').length, H) :: B')
        rw [anchorTail_cons, if_neg hc, heq]
        have hpos : pos + 1 + (r0 :: rest').length
            = pos + (c :: r0 :: rest').length := by
          simp only [List.length_cons]
          omega
        rw [hpos]

theorem findHeaderScan_skip (A B : List (Nat × List Char))
    (h : ∀ a ∈ A, matchHeaderAt a.2 = none) :
    findHeaderScan (A ++ B) = findHeaderScan B := by
  induction A with
  | nil => rfl
  | cons a as ih =>
    obtain ⟨pos, cs⟩ := a
    have ha := h (pos, cs) (by simp)
    rw [List.cons_append, findHeaderScan_cons, ha]
    exact ih (fun x hx => h x (by simp [hx]))

/-- The regex engine's first match over `pre ++ H` when `pre` is empty or a
full-line prefix (ending in a newline) none of whose lines starts with `#`,
and the regex matches at the start of `H`: the engine reports the match of
`H` at start position `pre.length`. -/
theorem headerMatch_after_pre (pre H : List Char) (len : Nat) (g : List Char)
    (hanch : pre = [] ∨ pre.getLast? = some '\n')
    (hnh : noHeadingStart pre = true)
    (hm : matchHeaderAt H = some (len, g)) :
    findHeaderScan (anchorsOf (pre ++ H)) = some (pre.length, len, g) := by
  rcases hanch with h0 | hlast
  · subst h0
    simp only [List.nil_append, anchorsOf]
    rw [findHeaderScan_cons, hm]
    rfl
  · obtain ⟨p0, pre', hp⟩ : ∃ p0 pre', pre = p0 :: pre' := by
      cases hq : pre with
      | nil =>
        rw [hq] at hlast
        simp at hlast
      | cons a b => exact ⟨a, b, rfl⟩
    have hnh' : noHashAtAnchors true (p0 :: pre') = true := by
      have h2 : noHeadingStart (p0 :: pre') = true := hp ▸ hnh
      exact h2
    obtain ⟨hh0, _⟩ := noHashAtAnchors_cons true p0 pre' hnh'
    have hp0 : ¬(p0 = '#') := fun h => hh0 ⟨rfl, h⟩
    have hfirst : matchHeaderAt (pre ++ H) = none := by
      rw [hp, List.cons_append]
      exact matchHeaderAt_head_not_hash p0 _ hp0
    obtain ⟨A, B, heq, hfail⟩ := anchorTail_split pre true 0 H hlast hnh
    simp only [anchorsOf]
    rw [findHeaderScan_cons, hfirst]
    show findHeaderScan (anchorTail 0 (pre ++ H)) = some (pre.length, len, g)
    rw [heq, findHeaderScan_skip A _ hfail, findHeaderScan_cons, hm]
    show some (0 + pre.length, len, g) = some (pre.length, len, g)
    rw [Nat.zero_add]

/-- Reduction of `removeFirstHeader` on a known match: splice out the
matched span and trim. -/
theorem removeFirstHeader_eq (text : String) (s e : Nat) (g : String)
    (h : headerMatch text = some (s, e, g)) :
    removeFirstHeader text
      = jsTrim (String.mk (text.data.take s ++ text.data.drop e)) := by
  simp only [removeFirstHeader, h]

/-- The Scenario of claim C5's counterexample: a `.md` file whose content
starts with a paragraph and carries a heading only mid-file. -/
theorem loader_mid_file_header_counterexample :
    (matchHeaderAt ("intro\n# Real Header\nbody").data).isNone = true
    ∧ (loadFileSection "a.md" "intro\n# Real Header\nbody")
        = ("Real Header", "intro\nbody")
    ∧ ¬ ((loadFileSection "a.md" "intro\n# Real Header\nbody").1 = "a.md") := by
  decide

/-- C5 (amended): for a surviving file, if its name does not end in `.md`,
or its content contains no header match at all, the sub-section title is
the filename verbatim and the entire content is the single item; if the
name ends in `.md` and the FIRST heading line of the content — anywhere in
the file, the regex being multiline — is `'#'*k ++ ws ++ t` (1 ≤ k ≤ 6,
`ws` a nonempty whitespace run, `t` non-empty, newline-free, not starting
with whitespace), then that heading's trimmed text becomes the title and
the item content is the file content with the matched heading removed and
trimmed.  The heading line is placed after an arbitrary prefix `pre` that
ends at a line boundary and none of whose lines starts with `#` (every
match must start with `#` at an anchor, so this says exactly that the
exhibited heading is the first match); the heading may be terminated by a
newline (conjunct 3, the newline is consumed and the remainder keeps
`pre ++ rest`) or by the end of the file (conjunct 4). -/
theorem loader_file_section (file content : String) (pre : List Char)
    (k : Nat) (ws : List Char) (t rest : String) :
    (¬ (strEndsWith file ".md" = true) → loadFileSection file content = (file, content))
    ∧ (strEndsWith file ".md" = true → headerMatch content = none →
        loadFileSection file content = (file, content))
    ∧ (strEndsWith file ".md" = true →
        (pre = [] ∨ pre.getLast? = some '\n') → noHeadingStart pre = true →
        1 ≤ k → k ≤ 6 → ws ≠ [] → (∀ c ∈ ws, isWS c = true) →
        t.data ≠ [] → (∀ c ∈ t.data, ¬(c = '\n')) →
        (∀ c, t.data.head? = some c → c.isWhitespace = false) →
        loadFileSection file
          (String.mk (pre ++ (List.replicate k '#' ++ (ws ++ (t.data ++ '\n' :: rest.data)))))
          = (jsTrim t, jsTrim (String.mk (pre ++ rest.data))))
    ∧ (strEndsWith file ".md" = true →
        (pre = [] ∨ pre.getLast? = some '\n') → noHeadingStart pre = true →
        1 ≤ k → k ≤ 6 → ws ≠ [] → (∀ c ∈ ws, isWS c = true) →
        t.data ≠ [] → (∀ c ∈ t.data, ¬(c = '\n')) →
        (∀ c, t.data.head? = some c → c.isWhitespace = false) →
        loadFileSection file
          (String.mk (pre ++ (List.replicate k '#' ++ (ws ++ t.data))))
          = (jsTrim t, jsTrim (String.mk pre))) := by
  refine ⟨?_, ?_, ?_, ?_⟩
  · intro h
    simp [loadFileSection, h]
  · intro hmd hnone
    simp [loadFileSection, hmd, extractFirstHeader, hnone]
  · intro hmd hanch hnh hk1 hk2 hws0 hws ht0 htn hth
    obtain ⟨c0, cs, hd⟩ : ∃ c0 cs, t.data = c0 :: cs := by
      cases h : t.data with
      | nil => exact absurd h ht0
      | cons a b => exact ⟨a, b, rfl⟩
    have hc0 : c0.isWhitespace = false := hth c0 (by rw [hd]; rfl)
    have hm0 := matchHeaderAt_heading k ws t ('\n' :: rest.data) hk1 hk2 hws0 hws
      ht0 htn hth (Or.inr ⟨rest.data, rfl⟩)
    have hm : matchHeaderAt (List.replicate k '#' ++ (ws ++ (t.data ++ '\n' :: rest.data)))
        = some (k + ws.length + t.data.length + 1, t.data) := by
      rw [hm0]
      simp
    have hscanfs := headerMatch_after_pre pre
      (List.replicate k '#' ++ (ws ++ (t.data ++ '\n' :: rest.data)))
      (k + ws.length + t.data.length + 1) t.data hanch hnh hm
    have hdata : (String.mk (pre ++ (List.replicate k '#' ++ (ws ++ (t.data ++ '\n' :: rest.data))))).data
        = pre ++ (List.replicate k '#' ++ (ws ++ (t.data ++ '\n' :: rest.data))) := rfl
    have hscan : headerMatch (String.mk (pre ++ (List.replicate k '#' ++ (ws ++ (t.data ++ '\n' :: rest.data)))))
        = some (pre.length, pre.length + (k + ws.length + t.data.length + 1), t) := by
      unfold headerMatch
      rw [hdata, hscanfs]
    have hex : extractFirstHeader (String.mk (pre ++ (List.replicate k '#' ++ (ws ++ (t.data ++ '\n' :: rest.data)))))
        = some (jsTrim t) := by
      unfold extractFirstHeader
      rw [hscan]
      simp only [if_neg (str_ne_empty_of_cons t c0 cs hd)]
    have htakeL : (pre ++ (List.replicate k '#' ++ (ws ++ (t.data ++ '\n' :: rest.data)))).take pre.length
        = pre := List.take_left pre _
    have hlenH : (List.replicate k '#' ++ (ws ++ (t.data ++ ['\n']))).length
        = k + ws.length + t.data.length + 1 := by
      simp only [List.length_append, List.length_replicate, List.length_cons,
        List.length_nil]
      omega
    have hdropR : (pre ++ (List.replicate k '#' ++ (ws ++ (t.data ++ '\n' :: rest.data)))).drop
        (pre.length + (k + ws.length + t.data.length + 1)) = rest.data := by
      rw [drop_append_offset]
      rw [show List.replicate k '#' ++ (ws ++ (t.data ++ '\n' :: rest.data))
          = (List.replicate k '#' ++ (ws ++ (t.data ++ ['\n']))) ++ rest.data
          from by simp]
      rw [← hlenH, List.drop_left]
    have hrem : removeFirstHeader (String.mk (pre ++ (List.replicate k '#' ++ (ws ++ (t.data ++ '\n' :: rest.data)))))
        = jsTrim (String.mk (pre ++ rest.data)) := by
      rw [removeFirstHeader_eq _ _ _ _ hscan, hdata, htakeL, hdropR]
    simp only [loadFileSection, hmd, if_true, hex]
    rw [if_neg (jsTrim_ne_empty t c0 cs hd hc0)]
    rw [hrem]
  · intro hmd hanch hnh hk1 hk2 hws0 hws ht0 htn hth
    obtain ⟨c0, cs, hd⟩ : ∃ c0 cs, t.data = c0 :: cs := by
      cases h : t.data with
      | nil => exact absurd h ht0
      | cons a b => exact ⟨a, b, rfl⟩
    have hc0 : c0.isWhitespace = false := hth c0 (by rw [hd]; rfl)
    have hm0 := matchHeaderAt_heading k ws t [] hk1 hk2 hws0 hws
      ht0 htn hth (Or.inl rfl)
    have hm : matchHeaderAt (List.replicate k '#' ++ (ws ++ t.data))
        = some (k + ws.length + t.data.length, t.data) := by
      have h2 : matchHeaderAt (List.replicate k '#' ++ (ws ++ (t.data ++ [])))
          = some (k + ws.length + t.data.length, t.data) := by
        rw [hm0]
        simp
      rw [show ws ++ t.data = ws ++ (t.data ++ []) from by simp]
      exact h2
    have hscanfs := headerMatch_after_pre pre
      (List.replicate k '#' ++ (ws ++ t.data))
      (k + ws.length + t.data.length) t.data hanch hnh hm
    have hdata : (String.mk (pre ++ (List.replicate k '#' ++ (ws ++ t.data)))).data
        = pre ++ (List.replicate k '#' ++ (ws ++ t.data)) := rfl
    have hscan : headerMatch (String.mk (pre ++ (List.replicate k '#' ++ (ws ++ t.data))))
        = some (pre.length, pre.length + (k + ws.length + t.data.length), t) := by
      unfold headerMatch
      rw [hdata, hscanfs]
    have hex : extractFirstHeader (String.mk (pre ++ (List.replicate k '#' ++ (ws ++ t.data))))
        = some (jsTrim t) := by
      unfold extractFirstHeader
      rw [hscan]
      simp only [if_neg (str_ne_empty_of_cons t c0 cs hd)]
    have htakeL : (pre ++ (List.replicate k '#' ++ (ws ++ t.data))).take pre.length
        = pre := List.take_left pre _
    have hlenH : (List.replicate k '#' ++ (ws ++ t.data)).length
        = k + ws.length + t.data.length := by
      simp only [List.length_append, List.length_replicate]
      omega
    have hdropR : (pre ++ (List.replicate k '#' ++ (ws ++ t.data))).drop
        (pre.length + (k + ws.length + t.data.length)) = ([] : List Char) := by
      rw [drop_append_offset, ← hlenH, List.drop_length]
    have hrem : removeFirstHeader (String.mk (pre ++ (List.replicate k '#' ++ (ws ++ t.data))))
        = jsTrim (String.mk pre) := by
      rw [removeFirstHeader_eq _ _ _ _ hscan, hdata, htakeL, hdropR, List.append_nil]
    simp only [loadFileSection, hmd, if_true, hex]
    rw [if_neg (jsTrim_ne_empty t c0 cs hd hc0)]
    rw [hrem]

/-- A `.md` file whose first heading sits mid-file after a plain paragraph,
a `.md` file that is a single heading line with no trailing newline, and a
non-`.md` file. -/
theorem loader_file_section_witness :
    loadFileSection "a.md" "intro\n# Real Header\nbody" = ("Real Header", "intro\nbody")
    ∧ loadFileSection "notes.md" "## Header" = ("Header", "")
    ∧ loadFileSection "img.png" "data" = ("img.png", "data") := by
  refine ⟨?_, ?_, ?_⟩
  · have h := (loader_file_section "a.md" "" ("intro\n".data) 1 [' '] "Real Header" "body").2.2.1
      (by decide) (by decide) (by decide) (by decide) (by decide) (by decide)
      (by decide) (by decide) (by decide)
      (by
        intro c hc
        have h2 : some 'R' = some c := hc
        injection h2 with h3
        subst h3
        decide)
    have heq : ("intro\n# Real Header\nbody" : String)
        = String.mk ("intro\n".data ++ (List.replicate 1 '#' ++ ([' '] ++ ("Real Header".data ++ '\n' :: "body".data)))) := by
      decide
    rw [heq, h]
    decide
  · have h := (loader_file_section "notes.md" "" ([] : List Char) 2 [' '] "Header" "").2.2.2
      (by decide) (Or.inl rfl) (by decide) (by decide) (by decide) (by decide)
      (by decide) (by decide) (by decide)
      (by
        intro c hc
        have h2 : some 'H' = some c := hc
        injection h2 with h3
        subst h3
        decide)
    have heq : ("## Header" : String)
        = String.mk (([] : List Char) ++ (List.replicate 2 '#' ++ ([' '] ++ "Header".data))) := by
      decide
    rw [heq, h]
    decide
  · exact (loader_file_section "img.png" "data" [] 0 [] "" "").1 (by decide)

/- Helpers for the ignore-pattern pipeline. -/

theorem createSafeIgnorePatterns_char (ps : List String) :
    (createSafeIgnorePatterns ps).1 = ps.filterMap compilePattern
    ∧ (createSafeIgnorePatterns ps).2 =
      (ps.filter (fun p => (compilePattern p).isNone)).map
        (fun p => "Invalid or unsafe ignore pattern \"" ++ p ++ "\"") := by
  induction ps with
  | nil => exact ⟨rfl, rfl⟩
  | cons p rest ih =>
    unfold createSafeIgnorePatterns at ih ⊢
    rw [List.foldr_cons, List.filterMap_cons, List.filter_cons]
    cases hcp : compilePattern p with
    | some r => simp [hcp, ih.1, ih.2]
    | none => simp [hcp, ih.1, ih.2]

theorem processDirectory_patterns_congr (st : StorageM) (ps ps' : List String)
    (h : (createSafeIgnorePatterns ps).1 = (createSafeIgnorePatterns ps').1) :
    ∀ dir, processDirectory st ps dir = processDirectory st ps' dir := by
  intro dir
  unfold processDirectory
  rw [h]

/-- C6: a pattern that can be compiled neither directly as a safe regex nor
via the glob-to-regex fallback contributes no matcher and is logged with
one warning, while the matchers of the remaining patterns — and therefore
the whole load — are unchanged; `(a+)+` is such a pattern. -/
theorem loader_unsafe_pattern_noop (ps1 ps2 : List String) (p : String)
    (hp : compilePattern p = none) :
    compilePattern "(a+)+" = none
    ∧ (createSafeIgnorePatterns (ps1 ++ p :: ps2)).1
        = (createSafeIgnorePatterns (ps1 ++ ps2)).1
    ∧ (createSafeIgnorePatterns (ps1 ++ p :: ps2)).2.length
        = (createSafeIgnorePatterns (ps1 ++ ps2)).2.length + 1
    ∧ (∀ st dirs, loadModel st (ps1 ++ p :: ps2) dirs
        = loadModel st (ps1 ++ ps2) dirs) := by
  have hmat : (createSafeIgnorePatterns (ps1 ++ p :: ps2)).1
      = (createSafeIgnorePatterns (ps1 ++ ps2)).1 := by
    rw [(createSafeIgnorePatterns_char _).1, (createSafeIgnorePatterns_char _).1]
    simp [List.filterMap_append, List.filterMap_cons, hp]
  refine ⟨rfl, hmat, ?_, ?_⟩
  · rw [(createSafeIgnorePatterns_char _).2, (createSafeIgnorePatterns_char _).2]
    simp [List.filter_append, List.filter_cons, hp]
    omega
  · intro st dirs
    unfold loadModel
    have hproc := processDirectory_patterns_congr st (ps1 ++ p :: ps2) (ps1 ++ ps2) hmat
    congr 1
    funext acc dir
    rw [hproc dir]

theorem loader_unsafe_pattern_noop_witness :
    (createSafeIgnorePatterns ["^\\..*", "(a+)+"]).1
      = (createSafeIgnorePatterns ["^\\..*"]).1
    ∧ (createSafeIgnorePatterns ["^\\..*", "(a+)+"]).2.length
      = (createSafeIgnorePatterns ["^\\..*"]).2.length + 1 := by
  have h := loader_unsafe_pattern_noop ["^\\..*"] [] "(a+)+" rfl
  exact ⟨h.2.1, h.2.2.1⟩

/- Helper for C7. -/

theorem loadModel_foldl_char (st : StorageM) (ps : List String) :
    ∀ (dirs : List String) (a1 : List PNode) (a2 : List String),
      dirs.foldl (fun acc dir =>
        match processDirectory st ps dir with
        | .ok s => (acc.1 ++ [s], acc.2)
        | .error e => (acc.1, acc.2 ++ [safeErrorMessage e])) (a1, a2)
      = (a1 ++ dirs.filterMap (fun d => (processDirectory st ps d).toOption),
         a2 ++ dirs.filterMap (fun d =>
           match processDirectory st ps d with
           | .error e => some (safeErrorMessage e)
           | .ok _ => none)) := by
  intro dirs
  induction dirs with
  | nil => intro a1 a2; simp
  | cons d rest ih =>
    intro a1 a2
    rw [List.foldl_cons, List.filterMap_cons, List.filterMap_cons]
    cases hd : processDirectory st ps d with
    | ok s => simp [hd, ih, Except.toOption]
    | error e => simp [hd, ih, Except.toOption]

/-- C7: `load` catches each directory's error, logs a sanitized message
(whose every word is free of absolute paths), and continues: the returned
sections are exactly those of the directories that succeeded, in order, and
the error log carries one sanitized entry per failed directory — never a
fail-fast abort. -/
theorem loader_partial_failure (st : StorageM) (ps : List String)
    (dirs : List String) :
    (loadModel st ps dirs).1
      = dirs.filterMap (fun d => (processDirectory st ps d).toOption)
    ∧ (loadModel st ps dirs).2
      = dirs.filterMap (fun d =>
          match processDirectory st ps d with
          | .error e => some (safeErrorMessage e)
          | .ok _ => none)
    ∧ (∀ e w, w ∈ safeErrorWords e → strStartsWith w "/" = false) := by
  refine ⟨?_, ?_, ?_⟩
  · unfold loadModel
    rw [loadModel_foldl_char st ps dirs [] []]
    simp
  · unfold loadModel
    rw [loadModel_foldl_char st ps dirs [] []]
    simp
  · intro e w hw
    simp only [safeErrorWords, List.mem_append, List.mem_map] at hw
    rcases hw with hw | ⟨x, _, hxw⟩
    · simp at hw
      rcases hw with h | h | h | h <;> rw [h] <;> decide
    · rw [← hxw]
      by_cases hx : strStartsWith x "/" = true
      · rw [if_pos hx]
        decide
      · rw [if_neg hx]
        simp only [Bool.not_eq_true] at hx
        exact hx

/-- A storage in which one directory loads and the other fails with an
absolute path in the error. -/
def stC7 : StorageM :=
  { existsF := fun _ => .ok false
    readFile := fun p => if p = "good/a.txt" then .ok "hello"
      else .error "ENOENT /secret/file"
    listFiles := fun p => if p = "good" then .ok ["a.txt"]
      else .error "EACCES /root/hidden"
    isFile := fun _ => .ok true }

theorem loader_partial_failure_witness :
    (loadModel stC7 [] ["good", "bad"]).1
      = [PNode.sec "good" [PNode.sec "a.txt" [PNode.text "hello"]]]
    ∧ (loadModel stC7 [] ["good", "bad"]).2
      = ["Error processing context directory: EACCES [redacted-path]"]
    ∧ strStartsWith "[redacted-path]" "/" = false := by
  have h := loader_partial_failure stC7 [] ["good", "bad"]
  refine ⟨?_, ?_, h.2.2 "EACCES /root/hidden" "[redacted-path]" (by decide)⟩
  · rw [h.1]; rfl
  · rw [h.2.1]; rfl

/- Helper for C8's monotone-matcher part. -/

theorem isPrefixL_append (p s u : List Char) (h : isPrefixL p s = true) :
    isPrefixL p (s ++ u) = true := by
  induction p generalizing s with
  | nil => rfl
  | cons a as ih =>
    cases s with
    | nil => cases h
    | cons b bs =>
      simp [isPrefixL] at h ⊢
      exact ⟨h.1, ih bs h.2⟩

theorem strStartsWith_append (s u pat : String)
    (h : strStartsWith s pat = true) : strStartsWith (s ++ u) pat = true := by
  unfold strStartsWith at h ⊢
  rw [String.data_append]
  exact isPrefixL_append _ _ _ h

/-- C8 counterexample: the compiled default image-extension pattern (an
end-anchored regex) matches the directory path `assets.jpg` itself, yet the
file `notes.txt` inside that directory is not excluded — so a pattern
matching the directory's own path does not always exclude every file in
that directory. -/
theorem loader_dirpath_pattern_counterexample :
    jsRegexTest "\\.(jpg|jpeg|png|gif|bmp|svg|webp|ico)$" true "assets.jpg" = true
    ∧ filterFiles "assets.jpg" ["notes.txt"]
        [jsRegexTest "\\.(jpg|jpeg|png|gif|bmp|svg|webp|ico)$" true]
      = ["notes.txt"] := by
  decide

/-- C8 (amended): a listed file is excluded iff some compiled pattern
matches the bare filename or the joined path `dir/f`; every default pattern
compiles through the direct safe-regex path, which always passes the
case-insensitive flag — so the default extension patterns exclude
upper-case variants such as `PHOTO.JPG`; and a pattern whose matches are
preserved under appending (an unanchored or start-anchored pattern) that
matches the directory's own path excludes every file in that directory
(an end-anchored pattern need not — see the counterexample). -/
theorem loader_ignore_filtering (dir : String) (files : List String)
    (matchers : List (String → Bool)) (f : String) (R : String → Bool) :
    (f ∈ filterFiles dir files matchers ↔
      f ∈ files ∧ ∀ r ∈ matchers, r f = false ∧ r (pjoin dir f) = false)
    ∧ (createSafeIgnorePatterns DEFAULT_IGNORE_PATTERNS).1
        = DEFAULT_IGNORE_PATTERNS.map (fun p => jsRegexTest p true)
    ∧ filterFiles "ctx" ["PHOTO.JPG"]
        (createSafeIgnorePatterns DEFAULT_IGNORE_PATTERNS).1 = []
    ∧ ((∀ s u, R s = true → R (s ++ u) = true) → R dir = true →
        filterFiles dir files (R :: matchers) = []) := by
  refine ⟨?_, rfl, by decide, ?_⟩
  · unfold filterFiles
    rw [List.mem_filter]
    constructor
    · rintro ⟨hmem, hpred⟩
      refine ⟨hmem, fun r hr => ?_⟩
      have h1 : (matchers.any (fun r => r f || r (pjoin dir f))) = false := by
        simpa using hpred
      rw [List.any_eq_false] at h1
      have h2 := h1 r hr
      simpa using h2
    · rintro ⟨hmem, hall⟩
      refine ⟨hmem, ?_⟩
      have h1 : (matchers.any (fun r => r f || r (pjoin dir f))) = false := by
        rw [List.any_eq_false]
        intro r hr
        have hrr := hall r hr
        simp [hrr.1, hrr.2]
      simp [h1]
  · intro hmono hdir
    unfold filterFiles
    rw [List.filter_eq_nil]
    intro a _
    have hjoin : R (pjoin dir a) = true := by
      have h0 := hmono dir ("/" ++ a) hdir
      rw [← String.append_assoc] at h0
      exact h0
    simp [hjoin]

theorem loader_ignore_filtering_witness :
    ("PHOTO.JPG" ∈ filterFiles "ctx" ["PHOTO.JPG", "readme.txt"]
        (createSafeIgnorePatterns DEFAULT_IGNORE_PATTERNS).1 ↔
      "PHOTO.JPG" ∈ ["PHOTO.JPG", "readme.txt"]
        ∧ ∀ r ∈ (createSafeIgnorePatterns DEFAULT_IGNORE_PATTERNS).1,
            r "PHOTO.JPG" = false ∧ r (pjoin "ctx" "PHOTO.JPG") = false)
    ∧ filterFiles ".git" ["a", "b"] [fun s => strStartsWith s "."] = [] := by
  have h := loader_ignore_filtering ".git" ["a", "b"] [] "x"
    (fun s => strStartsWith s ".")
  refine ⟨(loader_ignore_filtering "ctx" ["PHOTO.JPG", "readme.txt"]
    (createSafeIgnorePatterns DEFAULT_IGNORE_PATTERNS).1 "PHOTO.JPG"
    (fun _ => false)).1, ?_⟩
  exact h.2.2.2 (fun s u hs => strStartsWith_append s u "." hs) (by decide)

end RiotVerify
